import Mathlib

/-!
# Verification of the CSV aggregation pipeline (`src/main.rs`)

Shallow embedding of the Rust program: bytes are `Nat` (values 0..255 in
practice), byte strings are `List Nat`, machine `u32` arithmetic is `Nat`
arithmetic reduced `% 2^32` (the release-profile wrapping semantics), and the
panics of the Rust code (`unwrap`, slice-index bounds, parse failures) are the
`Except.error` cases of the embedded functions.

The embedded functions follow the source:
* `splitByte`      — `slice::split(|&b| b == delim)`;
* `parse_u32`      — `str::parse::<u32>` (i.e. `u32::from_str_radix(_, 10)`);
* `ColIndices.from_header` — header resolution (last match wins per name);
* `ProductData.process_row` — the per-row accumulator update;
* `calc_key_ref`   — the `fulltext` / `memmap-ref` strategy;
* `calc_read`      — the `read` strategy (`BufRead::read_until`, which keeps
                     the `\n` delimiter in the returned line);
* `LineReader` / `calc_custom_read` — the `custom-read` strategy, with the
  byte source given as the list of chunks successive `Read::read` calls return.
-/

/-- 2^32, the modulus of `u32` arithmetic. -/
def W32 : Nat := 4294967296

/-- ASCII `"\n"` byte. -/
def nlB : Nat := 10
/-- ASCII `","` byte. -/
def commaB : Nat := 44
/-- ASCII bytes of `"Source"`. -/
def sourceB : List Nat := [83, 111, 117, 114, 99, 101]
/-- ASCII bytes of `"B/S"`. -/
def bsB : List Nat := [66, 47, 83]
/-- ASCII bytes of `"OrdQty"`. -/
def ordQtyB : List Nat := [79, 114, 100, 81, 116, 121]
/-- ASCII bytes of `"WrkQty"`. -/
def wrkQtyB : List Nat := [87, 114, 107, 81, 116, 121]
/-- ASCII bytes of `"ExcQty"`. -/
def excQtyB : List Nat := [69, 120, 99, 81, 116, 121]
/-- ASCII bytes of `"Prod"`. -/
def prodB : List Nat := [80, 114, 111, 100]
/-- ASCII bytes of `"ToClnt"`, the filter sentinel. -/
def toClntB : List Nat := [84, 111, 67, 108, 110, 116]
/-- ASCII bytes of `"Buy"`. -/
def buyB : List Nat := [66, 117, 121]
/-- ASCII bytes of `"Sell"`. -/
def sellB : List Nat := [83, 101, 108, 108]

/-- `slice::split(|&b| b == d)`: split a byte string at every occurrence of
`d`; the delimiter is not part of any piece, and the result always has one
more piece than there are delimiters (an empty slice yields `[[]]`, exactly
as Rust's `split` yields one empty subslice). -/
def splitByte (d : Nat) : List Nat → List (List Nat)
  | [] => [[]]
  | c :: t => if c = d then [] :: splitByte d t else (splitByte d t).modifyHead (c :: ·)

/-- The error kinds of a `u32` parse, after `core::num::IntErrorKind`. -/
inductive ParseErr where
  | empty
  | invalidDigit
  | posOverflow
  deriving DecidableEq

/-- The panic kinds of a pipeline run. -/
inductive AggError where
  /-- `lines.next()` / `next_line()` found no header line at all. -/
  | noHeader
  /-- a required column name was absent from the header (`Option::unwrap`). -/
  | missingColumn
  /-- a slice index `cols[i]` was out of bounds. -/
  | indexOutOfBounds
  /-- `parse_u32` failed (`Result::unwrap`). -/
  | parse (e : ParseErr)
  deriving DecidableEq

/-- Digit accumulation loop of `u32::from_str_radix`: multiply-accumulate with
a `u32` overflow check at every step. -/
def parseU32Go : List Nat → Nat → Except ParseErr Nat
  | [], acc => .ok acc
  | c :: t, acc =>
    if 48 ≤ c ∧ c ≤ 57 then
      let acc' := acc * 10 + (c - 48)
      if acc' < W32 then parseU32Go t acc' else .error .posOverflow
    else .error .invalidDigit

/-- `str::parse::<u32>`, i.e. `u32::from_str_radix(s, 10)`: an optional
leading `'+'` (a lone `"+"` is invalid; `'-'` is not accepted for an unsigned
type) followed by at least one decimal digit; overflow past `u32::MAX` is an
error. This is the `parse_u32` helper of `ProductData::process_row`. -/
def parse_u32 (s : List Nat) : Except ParseErr Nat :=
  match s with
  | [] => .error .empty
  | c :: rest =>
    if c = 43 then
      if rest = [] then .error .invalidDigit else parseU32Go rest 0
    else parseU32Go s 0

/-- The per-entity accumulator (`struct ProductData`); all four fields are
`u32` in the source. -/
structure ProductData where
  count : Nat
  buys : Nat
  sells : Nat
  total_qty : Nat
  deriving DecidableEq

/-- `#[derive(Default)]`: zero-initialized accumulator. -/
instance : Inhabited ProductData := ⟨⟨0, 0, 0, 0⟩⟩

/-- The resolved header schema (`struct ColIndices`). -/
structure ColIndices where
  source : Nat
  bs : Nat
  ordqty : Nat
  wrkqty : Nat
  excqty : Nat
  prod : Nat
  deriving DecidableEq

/-- The six `Option<usize>` locals of `ColIndices::from_header` while the
header scan is running. -/
structure HeaderAcc where
  source : Option Nat
  bs : Option Nat
  ordqty : Option Nat
  wrkqty : Option Nat
  excqty : Option Nat
  prod : Option Nat
  deriving DecidableEq

/-- The `match col` body of the `ColIndices::from_header` loop: a recognized
name records the current position (overwriting any earlier one), anything
else is ignored. -/
def chainUpd (i : Nat) (c : List Nat) (acc : HeaderAcc) : HeaderAcc :=
  if c = sourceB then { acc with source := some i }
  else if c = bsB then { acc with bs := some i }
  else if c = ordQtyB then { acc with ordqty := some i }
  else if c = wrkQtyB then { acc with wrkqty := some i }
  else if c = excQtyB then { acc with excqty := some i }
  else if c = prodB then { acc with prod := some i }
  else acc

/-- The `for (i, col) in header.split(..).enumerate()` loop of
`ColIndices::from_header`: each recognized name overwrites its index, so the
last occurrence wins. -/
def scanHeader : Nat → List (List Nat) → HeaderAcc → HeaderAcc
  | _, [], acc => acc
  | i, c :: t, acc => scanHeader (i + 1) t (chainUpd i c acc)

/-- `ColIndices::from_header`: split the header on `','`, scan for the six
required names, and `unwrap` each of the six results (a missing name panics).
Also returns the number of header columns. -/
def ColIndices.from_header (header : List Nat) : Except AggError (ColIndices × Nat) :=
  let cols := splitByte commaB header
  let acc := scanHeader 0 cols ⟨none, none, none, none, none, none⟩
  match acc.source, acc.bs, acc.ordqty, acc.wrkqty, acc.excqty, acc.prod with
  | some s, some b, some o, some w, some e, some p => .ok (⟨s, b, o, w, e, p⟩, cols.length)
  | _, _, _, _, _, _ => .error .missingColumn

/-- `cols[i]`: slice indexing, which panics when out of bounds. -/
def getCol (cols : List (List Nat)) (i : Nat) : Except AggError (List Nat) :=
  match cols.get? i with
  | some c => .ok c
  | none => .error .indexOutOfBounds

/-- `parse_u32(cols[i])`: field access followed by the numeric parse, with
the parse failure promoted to a run abort. -/
def qtyAt (cols : List (List Nat)) (i : Nat) : Except AggError Nat := do
  let f ← getCol cols i
  (parse_u32 f).mapError .parse

/-- `ProductData::process_row`: increment `count`, classify the `B/S` field,
parse the three quantity fields and add their maximum to `total_qty`. All
four counters are `u32`, hence the `% 2^32`. The field accesses and parses
happen in source order, so the first failing one is the reported error. -/
def ProductData.process_row (pd : ProductData) (cols : List (List Nat)) (idx : ColIndices) :
    Except AggError ProductData := do
  let count' := (pd.count + 1) % W32
  let bs ← getCol cols idx.bs
  let buys' := if bs = buyB then (pd.buys + 1) % W32 else pd.buys
  let sells' := if bs = buyB then pd.sells else if bs = sellB then (pd.sells + 1) % W32 else pd.sells
  let ordqty ← qtyAt cols idx.ordqty
  let wrkqty ← qtyAt cols idx.wrkqty
  let excqty ← qtyAt cols idx.excqty
  .ok ⟨count', buys', sells', (pd.total_qty + max ordqty (max wrkqty excqty)) % W32⟩

/-- The aggregation table. The Rust code uses a hash map keyed by the `Prod`
bytes; the model is an association list with unique keys, `lookupA` and
`updateA` implementing lookup and `entry(..).or_default()` followed by the
in-place update. -/
def Table : Type := List (List Nat × ProductData)

instance : DecidableEq Table := by unfold Table; infer_instance

/-- Hash-map lookup: the value stored under `key`, if any. -/
def lookupA (tab : Table) (key : List Nat) : Option ProductData :=
  match tab with
  | [] => none
  | (k, v) :: t => if k = key then some v else lookupA t key

/-- Hash-map write-back: replace the value under `key`, or append a fresh
entry when the key is new. -/
def updateA (tab : Table) (key : List Nat) (pd : ProductData) : Table :=
  match tab with
  | [] => [(key, pd)]
  | (k, v) :: t => if k = key then (k, pd) :: t else (k, v) :: updateA t key pd

/-- One iteration of the data-row loop shared by `calc_key_ref`,
`calc_key_clone`, `calc_read` and `calc_custom_read`: skip the line when it
is empty, otherwise split it on `','`, filter on the `Source` field, and for
a qualifying row update the entry for its `Prod` key via `process_row`. -/
def stepLine (idx : ColIndices) (tab : Table) (line : List Nat) : Except AggError Table :=
  if line = [] then .ok tab
  else do
    let cols := splitByte commaB line
    let src ← getCol cols idx.source
    if src = toClntB then do
      let key ← getCol cols idx.prod
      let pd := (lookupA tab key).getD default
      let pd' ← pd.process_row cols idx
      .ok (updateA tab key pd')
    else .ok tab

/-- The whole pipeline over an already-determined sequence of logical lines:
resolve the header from the first line, then fold the row loop over the rest
starting from the empty table. -/
def calcLines (lines : List (List Nat)) : Except AggError Table :=
  match lines with
  | [] => .error .noHeader
  | h :: rest => do
    let (idx, _) ← ColIndices.from_header h
    rest.foldlM (stepLine idx) []

/-- `calc_key_ref` (the `fulltext` and `memmap-ref` strategies, and up to the
key-ownership difference also `calc_key_clone`): split the whole text on
`'\n'` and run the pipeline. -/
def calc_key_ref (text : List Nat) : Except AggError Table :=
  calcLines (splitByte nlB text)

/-- The sequence of lines `BufRead::read_until(b'\n')` yields for a given
byte stream: every line up to and INCLUDING its `'\n'` delimiter, plus a
final delimiter-less line when the input does not end in `'\n'`; at
end-of-input `read_until` appends nothing and returns 0. -/
def readUntilSegs (text : List Nat) : List (List Nat) :=
  let parts := splitByte nlB text
  parts.dropLast.map (· ++ [nlB]) ++ (if parts.getLast? = some [] then [] else [parts.getLastD []])

/-- `calc_read` (the `read` and `read-memmap` strategies): the first
`read_until` line is the header (empty at end-of-input), the rest feed the
same row loop. Note the lines still carry their `'\n'` byte. -/
def calc_read (text : List Nat) : Except AggError Table := do
  let segs := readUntilSegs text
  let (idx, _) ← ColIndices.from_header (segs.headD [])
  segs.tail.foldlM (stepLine idx) []

/-- First-`'\n'` split: `memchr(b'\n', region)`, returning the newline-free
part before the first `'\n'` and the remainder after it. -/
def splitFirstNl : List Nat → Option (List Nat × List Nat)
  | [] => none
  | c :: t =>
    if c = nlB then some ([], t)
    else (splitFirstNl t).map (fun p => (c :: p.1, p.2))

theorem splitFirstNl_some_length {u a b : List Nat} (h : splitFirstNl u = some (a, b)) :
    b.length < u.length := by
  induction u generalizing a b with
  | nil => simp [splitFirstNl] at h
  | cons c t ih =>
    by_cases hc : c = nlB
    · simp [splitFirstNl, hc] at h
      simp [← h.2]
    · simp only [splitFirstNl, hc, if_false, Option.map_eq_some'] at h
      obtain ⟨⟨a', b'⟩, hp, he⟩ := h
      cases he
      exact Nat.lt_succ_of_lt (ih hp)

/-- `LineReader::next_line`, unrolled over the whole run: `unconsumed` is the
live region `buf[cur..len]` of the reader's internal buffer, `pending` is the
`line` accumulator holding the delimiter-less prefix of a line that spanned a
refill, and `chunks` are the byte groups the successive `Read::read` calls
will deliver (a `read` returning 0 — modelled by an empty chunk or running
out of chunks — is end-of-input). The result is the sequence of logical
lines the reader yields before returning `None`. -/
def readerLinesAux (unconsumed pending : List Nat) (chunks : List (List Nat)) :
    List (List Nat) :=
  match hu : splitFirstNl unconsumed with
  | some (a, b) => (pending ++ a) :: readerLinesAux b [] chunks
  | none =>
    match chunks with
    | [] => if pending ++ unconsumed = [] then [] else [pending ++ unconsumed]
    | c :: cs =>
      if c = [] then (if pending ++ unconsumed = [] then [] else [pending ++ unconsumed])
      else readerLinesAux c (pending ++ unconsumed) cs
  termination_by (chunks.length, unconsumed.length)
  decreasing_by
    · exact Prod.Lex.right _ (splitFirstNl_some_length hu)
    · exact Prod.Lex.left _ _ (Nat.lt_succ_self _)

/-- The full line sequence a fresh `LineReader` produces from a chunked byte
source. -/
def readerLines (chunks : List (List Nat)) : List (List Nat) :=
  readerLinesAux [] [] chunks

/-- `calc_custom_read` (the `custom-read` strategy): take the header from the
`LineReader` (panicking when the input is empty), then run the same row loop
over the remaining reader lines. -/
def calc_custom_read (chunks : List (List Nat)) : Except AggError Table :=
  calcLines (readerLines chunks)

/-! ## Basic facts about the byte splitter -/

theorem splitByte_eq_splitOn (d : Nat) (l : List Nat) : splitByte d l = l.splitOn d := by
  induction l with
  | nil => rfl
  | cons c t ih =>
    simp only [splitByte, List.splitOn, List.splitOnP_cons, beq_iff_eq] at *
    by_cases h : c = d <;> simp [h, ih]

theorem splitByte_ne_nil (d : Nat) (l : List Nat) : splitByte d l ≠ [] := by
  rw [splitByte_eq_splitOn]; exact List.splitOnP_ne_nil _ l

theorem splitByte_of_not_mem {d : Nat} {l : List Nat} (h : d ∉ l) : splitByte d l = [l] := by
  rw [splitByte_eq_splitOn]
  refine List.splitOnP_eq_single _ _ ?_
  intro x hx hb
  rw [beq_iff_eq] at hb
  exact h (hb ▸ hx)

theorem splitByte_append_delim {d : Nat} {a : List Nat} (h : d ∉ a) (b : List Nat) :
    splitByte d (a ++ d :: b) = a :: splitByte d b := by
  rw [splitByte_eq_splitOn, splitByte_eq_splitOn]
  refine List.splitOnP_first _ a ?_ d (by simp) b
  intro x hx hb
  rw [beq_iff_eq] at hb
  exact h (hb ▸ hx)

theorem splitByte_singleton {d : Nat} {l x : List Nat} (h : splitByte d l = [x]) : l = x := by
  induction l generalizing x with
  | nil =>
    simp only [splitByte, List.cons.injEq, and_true] at h
    exact h
  | cons c t ih =>
    simp only [splitByte] at h
    by_cases hc : c = d
    · rw [if_pos hc] at h
      cases h' : splitByte d t with
      | nil => exact absurd h' (splitByte_ne_nil d t)
      | cons y ys => rw [h'] at h; simp at h
    · rw [if_neg hc] at h
      cases h' : splitByte d t with
      | nil => exact absurd h' (splitByte_ne_nil d t)
      | cons y ys =>
        rw [h'] at h
        simp only [List.modifyHead] at h
        injection h with h1 h2
        subst h2
        have := ih h'
        subst this
        exact h1

/-- Joining byte strings with a single delimiter byte; used to build concrete
inputs and to state recovery lemmas. -/
def joinBy (d : Nat) (parts : List (List Nat)) : List Nat :=
  List.intercalate [d] parts

theorem splitByte_joinBy {d : Nat} {parts : List (List Nat)} (hne : parts ≠ [])
    (hfree : ∀ p ∈ parts, d ∉ p) : splitByte d (joinBy d parts) = parts := by
  rw [splitByte_eq_splitOn, joinBy]
  exact List.splitOn_intercalate parts d hfree hne

/-! ## Facts about `splitFirstNl` -/

theorem splitFirstNl_eq_none {u : List Nat} (h : splitFirstNl u = none) : nlB ∉ u := by
  induction u with
  | nil => simp
  | cons c t ih =>
    simp only [splitFirstNl] at h
    by_cases hc : c = nlB
    · simp [hc] at h
    · rw [if_neg hc, Option.map_eq_none'] at h
      simp only [List.mem_cons, not_or]
      exact ⟨fun he => hc he.symm, ih h⟩

theorem splitFirstNl_eq_some {u a b : List Nat} (h : splitFirstNl u = some (a, b)) :
    u = a ++ nlB :: b ∧ nlB ∉ a := by
  induction u generalizing a b with
  | nil => simp [splitFirstNl] at h
  | cons c t ih =>
    simp only [splitFirstNl] at h
    by_cases hc : c = nlB
    · rw [if_pos hc] at h
      simp only [Option.some.injEq, Prod.mk.injEq] at h
      simp [← h.1, ← h.2, hc]
    · rw [if_neg hc, Option.map_eq_some'] at h
      obtain ⟨⟨a', b'⟩, hp, he⟩ := h
      cases he
      obtain ⟨h1, h2⟩ := ih hp
      constructor
      · simp [h1]
      · simp only [List.mem_cons, not_or]
        exact ⟨fun he2 => hc he2.symm, h2⟩

/-- Drop a final empty line, when present. -/
def removeLastEmpty (l : List (List Nat)) : List (List Nat) :=
  if l.getLast? = some [] then l.dropLast else l

theorem removeLastEmpty_cons {x : List Nat} {L : List (List Nat)} (h : L ≠ []) :
    removeLastEmpty (x :: L) = x :: removeLastEmpty L := by
  cases L with
  | nil => exact absurd rfl h
  | cons y ys => simp only [removeLastEmpty, List.getLast?_cons_cons, List.dropLast_cons₂]
                 split <;> rfl

theorem removeLastEmpty_singleton (x : List Nat) :
    removeLastEmpty [x] = if x = [] then [] else [x] := by
  simp only [removeLastEmpty, List.getLast?_singleton, List.dropLast_single, Option.some.injEq]

theorem readerLinesAux_some {u a b : List Nat} (p : List Nat) (ch : List (List Nat))
    (hu : splitFirstNl u = some (a, b)) :
    readerLinesAux u p ch = (p ++ a) :: readerLinesAux b [] ch := by
  cases ch with
  | nil =>
    rw [readerLinesAux.eq_1]
    split
    · rename_i a' b' hu'
      rw [hu] at hu'
      cases hu'
      rfl
    · rename_i hu'
      rw [hu'] at hu
      cases hu
  | cons c cs =>
    rw [readerLinesAux.eq_2]
    split
    · rename_i a' b' hu'
      rw [hu] at hu'
      cases hu'
      rfl
    · rename_i hu'
      rw [hu'] at hu
      cases hu

theorem readerLinesAux_none_nil {u : List Nat} (p : List Nat)
    (hu : splitFirstNl u = none) :
    readerLinesAux u p [] = if p ++ u = [] then [] else [p ++ u] := by
  rw [readerLinesAux.eq_1]
  split
  · rename_i a' b' hu'
    rw [hu'] at hu
    cases hu
  · rfl

theorem readerLinesAux_none_cons {u : List Nat} (p c : List Nat) (cs : List (List Nat))
    (hu : splitFirstNl u = none) :
    readerLinesAux u p (c :: cs) =
      if c = [] then (if p ++ u = [] then [] else [p ++ u])
      else readerLinesAux c (p ++ u) cs := by
  rw [readerLinesAux.eq_2]
  split
  · rename_i a' b' hu'
    rw [hu'] at hu
    cases hu
  · rfl

theorem readerLinesAux_spec (unconsumed pending : List Nat) (chunks : List (List Nat))
    (hc : ∀ c ∈ chunks, c ≠ []) (hp : nlB ∉ pending) :
    readerLinesAux unconsumed pending chunks =
      removeLastEmpty (splitByte nlB (pending ++ unconsumed ++ chunks.flatten)) := by
  induction unconsumed, pending, chunks using readerLinesAux.induct with
  | case1 u p ch a b hu ih =>
    obtain ⟨hueq, hafree⟩ := splitFirstNl_eq_some hu
    rw [readerLinesAux_some p ch hu, ih hc (by simp)]
    have hfree : nlB ∉ p ++ a := by
      simp only [List.mem_append, not_or]
      exact ⟨hp, hafree⟩
    have harr : p ++ u ++ ch.flatten = (p ++ a) ++ nlB :: (b ++ ch.flatten) := by
      rw [hueq]
      simp [List.append_assoc]
    rw [harr, splitByte_append_delim hfree, removeLastEmpty_cons (splitByte_ne_nil _ _)]
    simp
  | case2 u p hu hpu =>
    rw [readerLinesAux_none_nil p hu, if_pos hpu]
    rw [List.flatten_nil, List.append_nil, hpu]
    simp [removeLastEmpty, splitByte]
  | case3 u p hu hpu =>
    rw [readerLinesAux_none_nil p hu, if_neg hpu]
    have hfree : nlB ∉ p ++ u := by
      simp only [List.mem_append, not_or]
      exact ⟨hp, splitFirstNl_eq_none hu⟩
    rw [List.flatten_nil, List.append_nil, splitByte_of_not_mem hfree,
      removeLastEmpty_singleton, if_neg hpu]
  | case4 u p hu rest hpu =>
    exact absurd rfl (hc [] (by simp))
  | case5 u p hu rest hpu =>
    exact absurd rfl (hc [] (by simp))
  | case6 u p hu c rest hcne ih =>
    rw [readerLinesAux_none_cons p c rest hu, if_neg hcne]
    have hpu : nlB ∉ p ++ u := by
      simp only [List.mem_append, not_or]
      exact ⟨hp, splitFirstNl_eq_none hu⟩
    rw [ih (fun x hx => hc x (List.mem_cons_of_mem _ hx)) hpu]
    simp [List.append_assoc]

/-! ## Monadic fold plumbing over `Except` -/

theorem okBind {ε α β : Type} (a : α) (f : α → Except ε β) :
    (Except.ok a >>= f) = f a := rfl

theorem errBind {ε α β : Type} (e : ε) (f : α → Except ε β) :
    ((Except.error e : Except ε α) >>= f) = Except.error e := rfl

theorem except_foldlM_append {ε α β : Type} (f : β → α → Except ε β) (A B : List α) (t : β) :
    (A ++ B).foldlM f t = (A.foldlM f t) >>= fun t' => B.foldlM f t' := by
  induction A generalizing t with
  | nil => simp [okBind]
  | cons a A ih =>
    simp only [List.cons_append, List.foldlM_cons]
    cases h : f t a with
    | error e => simp [h, errBind]
    | ok t' => simp [h, okBind, ih]

theorem stepLine_nil (idx : ColIndices) (tab : Table) : stepLine idx tab [] = .ok tab := rfl

theorem foldlM_stepLine_concat_nil (idx : ColIndices) (A : List (List Nat)) (t : Table) :
    (A ++ [[]]).foldlM (stepLine idx) t = A.foldlM (stepLine idx) t := by
  rw [except_foldlM_append]
  cases h : A.foldlM (stepLine idx) t with
  | error e => simp [errBind]
  | ok t' => simp [okBind, stepLine_nil]

theorem foldlM_stepLine_removeLastEmpty (idx : ColIndices) (A : List (List Nat)) (t : Table) :
    (removeLastEmpty A).foldlM (stepLine idx) t = A.foldlM (stepLine idx) t := by
  unfold removeLastEmpty
  split
  · rename_i h
    conv_rhs => rw [← List.dropLast_append_getLast? _ h]
    rw [foldlM_stepLine_concat_nil]
  · rfl

/-! ## The chunked custom reader computes the same aggregates as the
full-buffer strategy, for every chunk decomposition. -/

theorem calc_custom_read_eq_calc_key_ref (chunks : List (List Nat))
    (hc : ∀ c ∈ chunks, c ≠ []) (hne : chunks.flatten ≠ []) :
    calc_custom_read chunks = calc_key_ref chunks.flatten := by
  unfold calc_custom_read calc_key_ref readerLines
  rw [readerLinesAux_spec [] [] chunks hc (by simp)]
  simp only [List.nil_append]
  cases hsp : splitByte nlB chunks.flatten with
  | nil => exact absurd hsp (splitByte_ne_nil _ _)
  | cons h A =>
    cases A with
    | nil =>
      have hx : chunks.flatten = h := splitByte_singleton hsp
      have hh : h ≠ [] := fun h0 => hne (by rw [hx, h0])
      rw [removeLastEmpty_singleton, if_neg hh]
    | cons y ys =>
      rw [removeLastEmpty_cons (by simp)]
      unfold calcLines
      cases hfh : ColIndices.from_header h with
      | error e => simp [hfh, errBind]
      | ok pr =>
        simp only [hfh, okBind]
        exact foldlM_stepLine_removeLastEmpty pr.1 (y :: ys) []

/-! ## Decomposition of one loop iteration

`stepLine`'s effect on the table factors through a table-independent
classification of the line: either an error (the panic the row would cause),
or `none` (empty or filtered-out row, table untouched), or the entity key
plus the increments applied to that key's accumulator. -/

/-- The effect of one qualifying row on its entity's accumulator. -/
structure RowEff where
  isBuy : Bool
  isSell : Bool
  qty : Nat
  deriving DecidableEq

/-- Apply a row effect to an accumulator (all counters are `u32`). -/
def applyEff (pd : ProductData) (e : RowEff) : ProductData :=
  ⟨(pd.count + 1) % W32,
   if e.isBuy then (pd.buys + 1) % W32 else pd.buys,
   if e.isBuy then pd.sells else if e.isSell then (pd.sells + 1) % W32 else pd.sells,
   (pd.total_qty + e.qty) % W32⟩

/-- Table-independent classification of one data line, with the same access
order (and hence the same first error) as `stepLine`. -/
def rowClass (idx : ColIndices) (line : List Nat) :
    Except AggError (Option (List Nat × RowEff)) :=
  if line = [] then .ok none
  else do
    let cols := splitByte commaB line
    let src ← getCol cols idx.source
    if src = toClntB then do
      let key ← getCol cols idx.prod
      let bs ← getCol cols idx.bs
      let o ← qtyAt cols idx.ordqty
      let w ← qtyAt cols idx.wrkqty
      let e ← qtyAt cols idx.excqty
      .ok (some (key, ⟨decide (bs = buyB), decide (bs = sellB), max o (max w e)⟩))
    else .ok none

theorem stepLine_eq_rowClass (idx : ColIndices) (tab : Table) (line : List Nat) :
    stepLine idx tab line = (rowClass idx line).map (fun r =>
      match r with
      | none => tab
      | some (k, e) => updateA tab k (applyEff ((lookupA tab k).getD default) e)) := by
  unfold stepLine rowClass
  by_cases hl : line = []
  · simp [hl, Except.map]
  · simp only [hl, if_neg, if_false]
    cases hsrc : getCol (splitByte commaB line) idx.source with
    | error e => simp [errBind, Except.map]
    | ok src =>
      simp only [okBind]
      by_cases hs : src = toClntB
      · simp only [hs, if_pos rfl]
        cases hkey : getCol (splitByte commaB line) idx.prod with
        | error e => simp [errBind, Except.map]
        | ok key =>
          simp only [okBind]
          unfold ProductData.process_row
          cases hbs : getCol (splitByte commaB line) idx.bs with
          | error e => simp [errBind, Except.map]
          | ok bs =>
            simp only [okBind]
            cases ho : qtyAt (splitByte commaB line) idx.ordqty with
            | error e => simp [errBind, Except.map]
            | ok o =>
              simp only [okBind]
              cases hw : qtyAt (splitByte commaB line) idx.wrkqty with
              | error e => simp [errBind, Except.map]
              | ok w =>
                simp only [okBind]
                cases he : qtyAt (splitByte commaB line) idx.excqty with
                | error e => simp [errBind, Except.map]
                | ok e =>
                  simp only [okBind, Except.map, applyEff, decide_eq_true_eq]
                  by_cases hb : bs = buyB <;> by_cases hse : bs = sellB <;>
                    simp [hb, hse]
      · simp [hs, Except.map]

/-! ## Association-table lemmas -/

theorem lookupA_updateA_self (tab : Table) (k : List Nat) (pd : ProductData) :
    lookupA (updateA tab k pd) k = some pd := by
  induction tab with
  | nil => simp [updateA, lookupA]
  | cons hd t ih =>
    obtain ⟨k', v⟩ := hd
    by_cases h : k' = k
    · simp [updateA, lookupA, h]
    · simp [updateA, lookupA, h, ih]

theorem lookupA_updateA_ne (tab : Table) {k k' : List Nat} (pd : ProductData)
    (h : k' ≠ k) : lookupA (updateA tab k pd) k' = lookupA tab k' := by
  induction tab with
  | nil =>
    simp only [updateA, lookupA]
    rw [if_neg (fun hk => h hk.symm)]
  | cons hd t ih =>
    obtain ⟨k0, v⟩ := hd
    by_cases h0 : k0 = k
    · subst h0
      simp only [updateA, if_pos rfl, lookupA]
      rw [if_neg (fun hk : k0 = k' => h (hk.symm : k' = k0)), if_neg (fun hk : k0 = k' => h hk.symm)]
    · simp only [updateA, if_neg h0, lookupA]
      by_cases h1 : k0 = k'
      · simp [h1]
      · simp [h1, ih]

/-! ## Error propagation: one bad row aborts the whole fold -/

theorem foldlM_stepLine_error (idx : ColIndices) {L : List (List Nat)} {l : List Nat}
    (hl : l ∈ L) {e : AggError} (he : rowClass idx l = .error e) (t : Table) :
    ∃ e', L.foldlM (stepLine idx) t = .error e' := by
  induction L generalizing t with
  | nil => cases hl
  | cons a L ih =>
    simp only [List.foldlM_cons]
    rcases List.mem_cons.mp hl with h | h
    · subst h
      have hs : stepLine idx t l = .error e := by
        rw [stepLine_eq_rowClass, he]; rfl
      exact ⟨e, by simp [hs, errBind]⟩
    · cases hs : stepLine idx t a with
      | error e2 => exact ⟨e2, by simp [errBind]⟩
      | ok t' =>
        obtain ⟨e', h'⟩ := ih h t'
        exact ⟨e', by simp [okBind, h']⟩

/-! ## Per-key row tallies -/

/-- Does this line contribute to key `k`'s accumulator? -/
def isQualFor (idx : ColIndices) (k : List Nat) (line : List Nat) : Bool :=
  match rowClass idx line with
  | .ok (some (k', _)) => decide (k' = k)
  | _ => false

/-- Does this line contribute a `Buy` to key `k`? -/
def isBuyFor (idx : ColIndices) (k : List Nat) (line : List Nat) : Bool :=
  match rowClass idx line with
  | .ok (some (k', e)) => decide (k' = k) && e.isBuy
  | _ => false

/-- Does this line contribute a `Sell` to key `k`? -/
def isSellFor (idx : ColIndices) (k : List Nat) (line : List Nat) : Bool :=
  match rowClass idx line with
  | .ok (some (k', e)) => decide (k' = k) && e.isSell
  | _ => false

/-- Number of qualifying rows for key `k` among the given lines. -/
def countQual (idx : ColIndices) (L : List (List Nat)) (k : List Nat) : Nat :=
  L.countP (isQualFor idx k)

/-- Number of qualifying `Buy` rows for key `k`. -/
def countBuy (idx : ColIndices) (L : List (List Nat)) (k : List Nat) : Nat :=
  L.countP (isBuyFor idx k)

/-- Number of qualifying `Sell` rows for key `k`. -/
def countSell (idx : ColIndices) (L : List (List Nat)) (k : List Nat) : Nat :=
  L.countP (isSellFor idx k)

theorem rowClass_not_both {idx : ColIndices} {l k : List Nat} {e : RowEff}
    (h : rowClass idx l = .ok (some (k, e))) : ¬(e.isBuy = true ∧ e.isSell = true) := by
  rintro ⟨hb, hs⟩
  unfold rowClass at h
  by_cases hl : l = []
  · simp [hl] at h
  · simp only [hl, if_neg, if_false] at h
    cases hsrc : getCol (splitByte commaB l) idx.source with
    | error e2 => rw [hsrc] at h; cases h
    | ok src =>
      rw [hsrc, okBind] at h
      by_cases hqual : src = toClntB
      · simp only [hqual, if_pos rfl] at h
        cases hkey : getCol (splitByte commaB l) idx.prod with
        | error e2 => rw [hkey] at h; cases h
        | ok key =>
          rw [hkey, okBind] at h
          cases hbs : getCol (splitByte commaB l) idx.bs with
          | error e2 => rw [hbs] at h; cases h
          | ok bs =>
            rw [hbs, okBind] at h
            cases ho : qtyAt (splitByte commaB l) idx.ordqty with
            | error e2 => rw [ho] at h; cases h
            | ok o =>
              rw [ho, okBind] at h
              cases hw : qtyAt (splitByte commaB l) idx.wrkqty with
              | error e2 => rw [hw] at h; cases h
              | ok w =>
                rw [hw, okBind] at h
                cases he : qtyAt (splitByte commaB l) idx.excqty with
                | error e2 => rw [he] at h; cases h
                | ok e2 =>
                  rw [he, okBind] at h
                  injection h with h1
                  injection h1 with h2
                  obtain ⟨-, he⟩ := Prod.mk.injEq .. ▸ h2
                  rw [← he] at hb hs
                  simp only [decide_eq_true_eq] at hb hs
                  exact absurd (hb ▸ hs : buyB = sellB) (by decide)
      · simp [hqual] at h

theorem isQualFor_of_isBuyFor {idx : ColIndices} {k l : List Nat}
    (h : isBuyFor idx k l = true) : isQualFor idx k l = true := by
  unfold isBuyFor at h
  unfold isQualFor
  cases hr : rowClass idx l with
  | error e => rw [hr] at h; cases h
  | ok r =>
    rw [hr] at h
    cases r with
    | none => cases h
    | some p =>
      obtain ⟨k', e⟩ := p
      simp only [Bool.and_eq_true] at h
      simp [h.1]

theorem isQualFor_of_isSellFor {idx : ColIndices} {k l : List Nat}
    (h : isSellFor idx k l = true) : isQualFor idx k l = true := by
  unfold isSellFor at h
  unfold isQualFor
  cases hr : rowClass idx l with
  | error e => rw [hr] at h; cases h
  | ok r =>
    rw [hr] at h
    cases r with
    | none => cases h
    | some p =>
      obtain ⟨k', e⟩ := p
      simp only [Bool.and_eq_true] at h
      simp [h.1]

theorem not_isBuyFor_and_isSellFor (idx : ColIndices) (k l : List Nat) :
    ¬(isBuyFor idx k l = true ∧ isSellFor idx k l = true) := by
  rintro ⟨hb, hs⟩
  unfold isBuyFor at hb
  unfold isSellFor at hs
  cases hr : rowClass idx l with
  | error e => rw [hr] at hb; cases hb
  | ok r =>
    rw [hr] at hb hs
    cases r with
    | none => cases hb
    | some p =>
      obtain ⟨k', e⟩ := p
      simp only [Bool.and_eq_true] at hb hs
      exact rowClass_not_both hr ⟨hb.2, hs.2⟩

theorem countBuy_le_countQual (idx : ColIndices) (L : List (List Nat)) (k : List Nat) :
    countBuy idx L k ≤ countQual idx L k :=
  List.countP_mono_left (fun l _ => isQualFor_of_isBuyFor)

theorem countBuy_add_countSell_le_countQual (idx : ColIndices) (L : List (List Nat))
    (k : List Nat) :
    countBuy idx L k + countSell idx L k ≤ countQual idx L k := by
  induction L with
  | nil => simp [countBuy, countSell, countQual]
  | cons a L ih =>
    simp only [countBuy, countSell, countQual, List.countP_cons] at *
    have hline : (if isBuyFor idx k a then 1 else 0) + (if isSellFor idx k a then 1 else 0) ≤
        (if isQualFor idx k a then 1 else 0) := by
      by_cases hb : isBuyFor idx k a = true
      · by_cases hs : isSellFor idx k a = true
        · exact absurd ⟨hb, hs⟩ (not_isBuyFor_and_isSellFor idx k a)
        · simp [hb, hs, isQualFor_of_isBuyFor hb]
      · by_cases hs : isSellFor idx k a = true
        · simp [hb, hs, isQualFor_of_isSellFor hs]
        · simp [hb, hs]
    omega

/-! ## Counter well-formedness (all stored counters are reduced mod `2^32`) -/

/-- The three counters of an accumulator are `u32` values. -/
def wfPD (pd : ProductData) : Prop :=
  pd.count < W32 ∧ pd.buys < W32 ∧ pd.sells < W32

/-- Every accumulator stored in the table has `u32` counters. -/
def wfTable (t : Table) : Prop :=
  ∀ k pd, lookupA t k = some pd → wfPD pd

theorem wfPD_default : wfPD default := by
  refine ⟨?_, ?_, ?_⟩ <;> decide

theorem wfPD_applyEff {pd : ProductData} (hw : wfPD pd) (e : RowEff) :
    wfPD (applyEff pd e) := by
  have hpos : 0 < W32 := by decide
  refine ⟨Nat.mod_lt _ hpos, ?_, ?_⟩
  · by_cases hb : e.isBuy = true <;> simp [applyEff, hb, Nat.mod_lt _ hpos, hw.2.1]
  · by_cases hb : e.isBuy = true
    · simp [applyEff, hb, hw.2.2]
    · by_cases hs : e.isSell = true <;>
        simp [applyEff, hb, hs, Nat.mod_lt _ hpos, hw.2.2]

theorem wfTable_nil : wfTable [] := by
  intro k pd h
  cases h

theorem wfTable_getD {t : Table} (ht : wfTable t) (k : List Nat) :
    wfPD ((lookupA t k).getD default) := by
  cases h : lookupA t k with
  | none => exact wfPD_default
  | some pd => exact ht k pd h

theorem wfTable_update {t : Table} (ht : wfTable t) {pd : ProductData} (hpd : wfPD pd)
    (k : List Nat) : wfTable (updateA t k pd) := by
  intro k' pd' h
  by_cases hk : k' = k
  · subst hk
    rw [lookupA_updateA_self] at h
    cases h
    exact hpd
  · rw [lookupA_updateA_ne _ _ hk] at h
    exact ht k' pd' h

/-- Characterization of the row-loop fold: for every key, the final counters
are the initial ones plus that key's row tallies, mod `2^32`; keys with no
qualifying row are untouched. -/
theorem foldlM_stepLine_counts (idx : ColIndices) (L : List (List Nat)) :
    ∀ t₀ t₁ : Table, wfTable t₀ → L.foldlM (stepLine idx) t₀ = .ok t₁ → ∀ k : List Nat,
      (countQual idx L k = 0 → lookupA t₁ k = lookupA t₀ k) ∧
      (0 < countQual idx L k → ∃ pd₁, lookupA t₁ k = some pd₁ ∧
        pd₁.count = (((lookupA t₀ k).getD default).count + countQual idx L k) % W32 ∧
        pd₁.buys = (((lookupA t₀ k).getD default).buys + countBuy idx L k) % W32 ∧
        pd₁.sells = (((lookupA t₀ k).getD default).sells + countSell idx L k) % W32) := by
  induction L with
  | nil =>
    intro t₀ t₁ hwf h k
    simp only [List.foldlM_nil] at h
    injection h with h
    subst h
    refine ⟨fun _ => rfl, fun h0 => ?_⟩
    simp [countQual] at h0
  | cons a L ih =>
    intro t₀ t₁ hwf h k
    simp only [List.foldlM_cons] at h
    cases hs : stepLine idx t₀ a with
    | error e => rw [hs, errBind] at h; cases h
    | ok t' =>
      rw [hs, okBind] at h
      rw [stepLine_eq_rowClass] at hs
      cases hr : rowClass idx a with
      | error e => rw [hr] at hs; cases hs
      | ok r =>
        rw [hr] at hs
        simp only [Except.map] at hs
        injection hs with hs
        cases r with
        | none =>
          have ht' : t' = t₀ := hs.symm
          subst ht'
          have hqa : isQualFor idx k a = false := by simp [isQualFor, hr]
          have hba : isBuyFor idx k a = false := by simp [isBuyFor, hr]
          have hsa : isSellFor idx k a = false := by simp [isSellFor, hr]
          simp only [countQual, countBuy, countSell, List.countP_cons, hqa, hba, hsa,
            if_false, Nat.add_zero]
          exact ih _ t₁ hwf h k
        | some p =>
          obtain ⟨k', e⟩ := p
          have ht' : t' = updateA t₀ k' (applyEff ((lookupA t₀ k').getD default) e) :=
            hs.symm
          have hwf' : wfTable t' := by
            rw [ht']
            exact wfTable_update hwf (wfPD_applyEff (wfTable_getD hwf k') e) k'
          by_cases hk : k' = k
          · subst hk
            have hqa : isQualFor idx k' a = true := by simp [isQualFor, hr]
            have hba : isBuyFor idx k' a = e.isBuy := by
              simp [isBuyFor, hr]
            have hsa : isSellFor idx k' a = e.isSell := by
              simp [isSellFor, hr]
            have hcq : countQual idx (a :: L) k' = countQual idx L k' + 1 := by
              simp [countQual, List.countP_cons, hqa]
            have hcb : countBuy idx (a :: L) k' =
                countBuy idx L k' + (if e.isBuy then 1 else 0) := by
              simp only [countBuy, List.countP_cons, hba]
            have hcs : countSell idx (a :: L) k' =
                countSell idx L k' + (if e.isSell then 1 else 0) := by
              simp only [countSell, List.countP_cons, hsa]
            set base := (lookupA t₀ k').getD default with hbase
            have hlk' : lookupA t' k' = some (applyEff base e) := by
              rw [ht']
              exact lookupA_updateA_self _ _ _
            have hwfb : wfPD base := wfTable_getD hwf k'
            obtain ⟨ih1, ih2⟩ := ih t' t₁ hwf' h k'
            refine ⟨fun h0 => by omega, fun _ => ?_⟩
            rcases Nat.eq_zero_or_pos (countQual idx L k') with hq | hq
            · have hb0 : countBuy idx L k' = 0 :=
                Nat.le_zero.mp (hq ▸ countBuy_le_countQual idx L k')
              have hs0 : countSell idx L k' = 0 := by
                have := countBuy_add_countSell_le_countQual idx L k'
                omega
              have hfin : lookupA t₁ k' = some (applyEff base e) := by
                rw [ih1 hq, hlk']
              refine ⟨applyEff base e, hfin, ?_, ?_, ?_⟩
              · simp [applyEff, hcq, hq]
              · rw [hcb, hb0]
                by_cases hbuy : e.isBuy = true
                · simp [applyEff, hbuy]
                · simp [applyEff, hbuy, Nat.mod_eq_of_lt hwfb.2.1]
              · rw [hcs, hs0]
                by_cases hbuy : e.isBuy = true
                · simp only [applyEff, hbuy, if_pos]
                  by_cases hsell : e.isSell = true
                  · exact absurd ⟨hbuy, hsell⟩ (rowClass_not_both hr)
                  · simp [hsell, Nat.mod_eq_of_lt hwfb.2.2]
                · by_cases hsell : e.isSell = true
                  · simp [applyEff, hbuy, hsell]
                  · simp [applyEff, hbuy, hsell, Nat.mod_eq_of_lt hwfb.2.2]
            · obtain ⟨pd₁, hpd₁, hc, hb, hsl⟩ := ih2 hq
              refine ⟨pd₁, hpd₁, ?_, ?_, ?_⟩
              · rw [hc, hlk']
                simp only [Option.getD_some, applyEff, hcq]
                rw [Nat.mod_add_mod]
                congr 1
                omega
              · rw [hb, hlk']
                simp only [Option.getD_some, applyEff, hcb]
                by_cases hbuy : e.isBuy = true
                · simp only [hbuy, if_pos]
                  rw [Nat.mod_add_mod]
                  congr 1
                  omega
                · simp [hbuy]
              · rw [hsl, hlk']
                simp only [Option.getD_some, applyEff, hcs]
                by_cases hbuy : e.isBuy = true
                · have hsell : e.isSell ≠ true := fun hsell =>
                    rowClass_not_both hr ⟨hbuy, hsell⟩
                  simp [hbuy, hsell]
                · by_cases hsell : e.isSell = true
                  · simp only [hbuy, if_neg, Bool.false_eq_true, if_false, hsell, if_pos]
                    rw [Nat.mod_add_mod]
                    congr 1
                    omega
                  · simp [hbuy, hsell]
          · have hqa : isQualFor idx k a = false := by
              simp [isQualFor, hr, hk]
            have hba : isBuyFor idx k a = false := by
              simp [isBuyFor, hr, hk]
            have hsa : isSellFor idx k a = false := by
              simp [isSellFor, hr, hk]
            have hlk : lookupA t' k = lookupA t₀ k := by
              rw [ht']
              exact lookupA_updateA_ne _ _ (fun hkk => hk hkk.symm)
            simp only [countQual, countBuy, countSell, List.countP_cons, hqa, hba, hsa,
              if_false, Nat.add_zero]
            obtain ⟨ih1, ih2⟩ := ih t' t₁ hwf' h k
            rw [hlk] at ih1 ih2
            exact ⟨ih1, ih2⟩

/-! ## Header resolution characterized by last occurrence -/

/-- Index of the last occurrence of `x` in `l`, if any. -/
def lastIdxOf (l : List (List Nat)) (x : List Nat) : Option Nat :=
  match l with
  | [] => none
  | a :: t =>
    match lastIdxOf t x with
    | some j => some (j + 1)
    | none => if a = x then some 0 else none

/-- Shift a freshly found index by the loop's running offset, keeping the old
value when nothing was found. -/
def mergeIdx (i : Nat) (o : Option Nat) (r : Option Nat) : Option Nat :=
  match r with
  | some j => some (i + j)
  | none => o

theorem chainUpd_source (i : Nat) (c : List Nat) (acc : HeaderAcc) :
    (chainUpd i c acc).source = if c = sourceB then some i else acc.source := by
  unfold chainUpd
  split_ifs <;> simp_all [sourceB, bsB, ordQtyB, wrkQtyB, excQtyB, prodB]

theorem chainUpd_bs (i : Nat) (c : List Nat) (acc : HeaderAcc) :
    (chainUpd i c acc).bs = if c = bsB then some i else acc.bs := by
  unfold chainUpd
  split_ifs <;> simp_all [sourceB, bsB, ordQtyB, wrkQtyB, excQtyB, prodB]

theorem chainUpd_ordqty (i : Nat) (c : List Nat) (acc : HeaderAcc) :
    (chainUpd i c acc).ordqty = if c = ordQtyB then some i else acc.ordqty := by
  unfold chainUpd
  split_ifs <;> simp_all [sourceB, bsB, ordQtyB, wrkQtyB, excQtyB, prodB]

theorem chainUpd_wrkqty (i : Nat) (c : List Nat) (acc : HeaderAcc) :
    (chainUpd i c acc).wrkqty = if c = wrkQtyB then some i else acc.wrkqty := by
  unfold chainUpd
  split_ifs <;> simp_all [sourceB, bsB, ordQtyB, wrkQtyB, excQtyB, prodB]

theorem chainUpd_excqty (i : Nat) (c : List Nat) (acc : HeaderAcc) :
    (chainUpd i c acc).excqty = if c = excQtyB then some i else acc.excqty := by
  unfold chainUpd
  split_ifs <;> simp_all [sourceB, bsB, ordQtyB, wrkQtyB, excQtyB, prodB]

theorem chainUpd_prod (i : Nat) (c : List Nat) (acc : HeaderAcc) :
    (chainUpd i c acc).prod = if c = prodB then some i else acc.prod := by
  unfold chainUpd
  split_ifs <;> simp_all [sourceB, bsB, ordQtyB, wrkQtyB, excQtyB, prodB]

theorem scanHeader_sel (sel : HeaderAcc → Option Nat) (name : List Nat)
    (hupd : ∀ i c acc, sel (chainUpd i c acc) = if c = name then some i else sel acc) :
    ∀ (cols : List (List Nat)) (i : Nat) (acc : HeaderAcc),
      sel (scanHeader i cols acc) = mergeIdx i (sel acc) (lastIdxOf cols name) := by
  intro cols
  induction cols with
  | nil => intro i acc; simp [scanHeader, lastIdxOf, mergeIdx]
  | cons c t ih =>
    intro i acc
    simp only [scanHeader]
    rw [ih, hupd]
    cases hj : lastIdxOf t name with
    | some j =>
      simp only [lastIdxOf, hj, mergeIdx]
      congr 1
      omega
    | none =>
      simp only [lastIdxOf, hj, mergeIdx]
      by_cases hc : c = name <;> simp [hc, mergeIdx]

theorem mergeIdx_zero_none (r : Option Nat) : mergeIdx 0 none r = r := by
  cases r <;> simp [mergeIdx]

/-- `from_header` in closed form: each resolved index is the last occurrence
of its column name, and resolution succeeds exactly when all six names occur. -/
theorem from_header_eq (header : List Nat) :
    ColIndices.from_header header =
      (match lastIdxOf (splitByte commaB header) sourceB,
             lastIdxOf (splitByte commaB header) bsB,
             lastIdxOf (splitByte commaB header) ordQtyB,
             lastIdxOf (splitByte commaB header) wrkQtyB,
             lastIdxOf (splitByte commaB header) excQtyB,
             lastIdxOf (splitByte commaB header) prodB with
       | some s, some b, some o, some w, some e, some p =>
           .ok (⟨s, b, o, w, e, p⟩, (splitByte commaB header).length)
       | _, _, _, _, _, _ => .error .missingColumn) := by
  simp only [ColIndices.from_header]
  rw [scanHeader_sel HeaderAcc.source sourceB chainUpd_source,
    scanHeader_sel HeaderAcc.bs bsB chainUpd_bs,
    scanHeader_sel HeaderAcc.ordqty ordQtyB chainUpd_ordqty,
    scanHeader_sel HeaderAcc.wrkqty wrkQtyB chainUpd_wrkqty,
    scanHeader_sel HeaderAcc.excqty excQtyB chainUpd_excqty,
    scanHeader_sel HeaderAcc.prod prodB chainUpd_prod]
  simp only [mergeIdx_zero_none]

theorem lastIdxOf_eq_none_iff (l : List (List Nat)) (x : List Nat) :
    lastIdxOf l x = none ↔ x ∉ l := by
  induction l with
  | nil => simp [lastIdxOf]
  | cons a t ih =>
    simp only [lastIdxOf, List.mem_cons]
    cases hj : lastIdxOf t x with
    | some j =>
      have hx : x ∈ t := by
        by_contra hmem
        rw [← ih] at hmem
        rw [hmem] at hj
        cases hj
      constructor
      · intro h; cases h
      · intro h; exact absurd (Or.inr hx) h
    | none =>
      have hxt : x ∉ t := ih.mp hj
      by_cases ha : a = x
      · constructor
        · intro h; rw [if_pos ha] at h; cases h
        · intro h; exact absurd (Or.inl ha.symm) h
      · rw [if_neg ha]
        constructor
        · intro _
          rintro (h | h)
          · exact ha h.symm
          · exact hxt h
        · intro _; rfl

/-! ## Concrete inputs used by the claim theorems -/

/-- ASCII bytes of `"Other"`. -/
def otherB : List Nat := [79, 116, 104, 101, 114]
/-- ASCII bytes of `"AAA"`. -/
def aaaB : List Nat := [65, 65, 65]
/-- ASCII bytes of `"Hold"`. -/
def holdB : List Nat := [72, 111, 108, 100]

/-- The spec's scenario header `Source,B/S,OrdQty,WrkQty,ExcQty,Prod`. -/
def headerLine : List Nat := joinBy commaB [sourceB, bsB, ordQtyB, wrkQtyB, excQtyB, prodB]

/-- The spec's scenario input: the standard header and the three data rows
`ToClnt,Buy,10,5,8,AAA`, `ToClnt,Sell,3,3,9,AAA`, `Other,Buy,100,1,1,AAA`,
each line `\n`-terminated. -/
def scenarioText : List Nat :=
  joinBy nlB
    [headerLine,
     joinBy commaB [toClntB, buyB, [49, 48], [53], [56], aaaB],
     joinBy commaB [toClntB, sellB, [51], [51], [57], aaaB],
     joinBy commaB [otherB, buyB, [49, 48, 48], [49], [49], aaaB],
     []]

/-- The scenario input delivered in two reads whose boundary falls in the
middle of the first data row. -/
def scenarioChunks : List (List Nat) := [scenarioText.take 37, scenarioText.drop 37]

/-- C1 claims the three strategies agree on every input. The full-buffer
strategy and the custom chunked reader do agree on the scenario input (for a
chunking that cuts mid-row), but the `read_until`-based strategy fails on the
very same input: `read_until` keeps the `'\n'` terminator, so the last header
column reads `"Prod\n"`, the `Prod` column is not found, and the run panics.
(The dead `line.len() == 0` check in `calc_read` shows the delimiter was not
meant to be there.) -/
theorem C1_strategies_diverge :
    calc_key_ref scenarioText = .ok [(aaaB, ⟨2, 1, 1, 19⟩)] ∧
    calc_custom_read scenarioChunks = .ok [(aaaB, ⟨2, 1, 1, 19⟩)] ∧
    calc_read scenarioText = .error .missingColumn := by
  refine ⟨rfl, ?_, rfl⟩
  rw [calc_custom_read_eq_calc_key_ref scenarioChunks (by decide) (by decide)]
  have hfl : scenarioChunks.flatten = scenarioText := by
    simp [scenarioChunks, List.take_append_drop]
  rw [hfl]
  rfl

/-- C5: on the scenario input the aggregation yields exactly one entity,
`AAA`, with count 2, one buy, one sell, totalQty 19 and average 9.50. -/
theorem C5_scenario_aggregates :
    ∃ pd : ProductData, calc_key_ref scenarioText = .ok [(aaaB, pd)] ∧
      pd.count = 2 ∧ pd.buys = 1 ∧ pd.sells = 1 ∧ pd.total_qty = 19 ∧
      (pd.total_qty : ℚ) / (pd.count : ℚ) = 9.5 := by
  refine ⟨⟨2, 1, 1, 19⟩, rfl, rfl, rfl, rfl, rfl, by norm_num⟩

/-- Input for C7: a header with `Source` in column 1 (and a harmless trailing
extra column), two qualifying rows, and an empty line between them. -/
def c7Text : List Nat :=
  joinBy nlB
    [joinBy commaB [bsB, sourceB, ordQtyB, wrkQtyB, excQtyB, prodB, [90]],
     joinBy commaB [buyB, toClntB, [49], [50], [51], aaaB, [122]],
     [],
     joinBy commaB [sellB, toClntB, [52], [53], [54], aaaB, [122]],
     []]

/-- The C7 input delivered in two reads. -/
def c7Chunks : List (List Nat) := [c7Text.take 20, c7Text.drop 20]

/-- C7 claims an empty line is skipped, leaving accumulators unchanged, under
every byte-source strategy. In the shared row loop an empty line is indeed a
no-op for any table (first conjunct), and the full-buffer and custom-reader
strategies aggregate the C7 input normally; but the `read_until`-based
strategy sees the empty line as the one-byte line `"\n"`, tokenizes it to the
single field `["\n"]`, and panics indexing the `Source` column (index 1). -/
theorem C7_empty_line_skipped :
    (∀ (idx : ColIndices) (tab : Table), stepLine idx tab [] = .ok tab) ∧
    calc_key_ref c7Text = .ok [(aaaB, ⟨2, 1, 1, 9⟩)] ∧
    calc_custom_read c7Chunks = .ok [(aaaB, ⟨2, 1, 1, 9⟩)] ∧
    calc_read c7Text = .error .indexOutOfBounds := by
  refine ⟨stepLine_nil, rfl, ?_, rfl⟩
  rw [calc_custom_read_eq_calc_key_ref c7Chunks (by decide) (by decide)]
  have hfl : c7Chunks.flatten = c7Text := by
    simp [c7Chunks, List.take_append_drop]
  rw [hfl]
  rfl

/-- C9: a readable `Source` field different from `"ToClnt"` discards the row
before any numeric parsing or table access: the step is a no-op on any table,
whatever the other fields contain. -/
theorem C9_nonqualifying_row_skipped (idx : ColIndices) (tab : Table)
    (line src : List Nat) (hne : line ≠ [])
    (hsrc : getCol (splitByte commaB line) idx.source = .ok src)
    (hnq : src ≠ toClntB) :
    stepLine idx tab line = .ok tab := by
  simp only [stepLine]
  rw [if_neg hne, hsrc, okBind, if_neg hnq]

/-- Witness for C9: a non-qualifying row whose numeric fields are garbage
(`Other,@@,!!,,zz,AAA`) is skipped without error. -/
theorem C9_witness :
    stepLine ⟨0, 1, 2, 3, 4, 5⟩ [] (joinBy commaB [otherB, [64, 64], [33, 33], [], [122, 122], aaaB]) = .ok [] :=
  C9_nonqualifying_row_skipped ⟨0, 1, 2, 3, 4, 5⟩ []
    (joinBy commaB [otherB, [64, 64], [33, 33], [], [122, 122], aaaB]) otherB
    (by decide) rfl (by decide)

/-! ## The numeric parser, characterized -/

/-- Value of a digit string, most significant digit first. -/
def digitsVal (t : List Nat) : Nat :=
  t.foldl (fun a c => a * 10 + (c - 48)) 0

/-- `digitsVal` relative to a running accumulator. -/
def valFrom (acc : Nat) (t : List Nat) : Nat :=
  t.foldl (fun a c => a * 10 + (c - 48)) acc

theorem le_valFrom (t : List Nat) : ∀ acc : Nat, acc ≤ valFrom acc t := by
  induction t with
  | nil => intro acc; exact Nat.le_refl _
  | cons c t ih =>
    intro acc
    have h1 : acc ≤ acc * 10 + (c - 48) := by
      have : acc * 1 ≤ acc * 10 := Nat.mul_le_mul_left acc (by omega)
      omega
    exact Nat.le_trans h1 (ih _)

theorem parseU32Go_ok_iff (t : List Nat) : ∀ acc : Nat, acc < W32 → ∀ n : Nat,
    (parseU32Go t acc = .ok n ↔
      ((∀ c ∈ t, 48 ≤ c ∧ c ≤ 57) ∧ valFrom acc t < W32 ∧ n = valFrom acc t)) := by
  induction t with
  | nil =>
    intro acc hacc n
    simp only [parseU32Go, valFrom, List.foldl_nil]
    constructor
    · intro h
      injection h with h
      exact ⟨by simp, by omega, h.symm⟩
    · rintro ⟨-, -, h⟩
      rw [h]
  | cons c t ih =>
    intro acc hacc n
    simp only [parseU32Go]
    by_cases hd : 48 ≤ c ∧ c ≤ 57
    · rw [if_pos hd]
      by_cases hov : acc * 10 + (c - 48) < W32
      · rw [if_pos hov, ih _ hov n]
        simp only [valFrom, List.foldl_cons]
        constructor
        · rintro ⟨h1, h2, h3⟩
          refine ⟨?_, h2, h3⟩
          intro x hx
          rcases List.mem_cons.mp hx with h | h
          · subst h; exact hd
          · exact h1 x h
        · rintro ⟨h1, h2, h3⟩
          exact ⟨fun x hx => h1 x (List.mem_cons_of_mem c hx), h2, h3⟩
      · rw [if_neg hov]
        constructor
        · intro h; cases h
        · rintro ⟨-, h2, -⟩
          simp only [valFrom, List.foldl_cons] at h2
          have := le_valFrom t (acc * 10 + (c - 48))
          exact absurd (Nat.lt_of_le_of_lt this h2) hov
    · rw [if_neg hd]
      constructor
      · intro h; cases h
      · rintro ⟨h1, -, -⟩
        exact absurd (h1 c (List.mem_cons_self c t)) hd

/-- C3 (amended): `parse_u32` succeeds with value `n` exactly when the field
is an optional leading `'+'` followed by a nonempty all-digit string whose
value fits in a `u32`, and `n` is that value. In particular a lone sign, a
`'-'`, an empty field, any other non-digit byte, or an overflowing value is a
fatal parse error, while a `'+'`-prefixed number is accepted. -/
theorem C3_parse_characterization (s : List Nat) (n : Nat) :
    parse_u32 s = .ok n ↔
      ∃ t, (s = t ∨ s = 43 :: t) ∧ t ≠ [] ∧ (∀ c ∈ t, 48 ≤ c ∧ c ≤ 57) ∧
        digitsVal t < W32 ∧ n = digitsVal t := by
  have hW : (0 : Nat) < W32 := by decide
  cases s with
  | nil =>
    simp only [parse_u32]
    constructor
    · intro h; cases h
    · rintro ⟨t, hs, hne, -, -, -⟩
      rcases hs with hs | hs
      · exact absurd hs.symm hne
      · cases hs
  | cons c rest =>
    simp only [parse_u32]
    by_cases hc : c = 43
    · rw [if_pos hc]
      by_cases hrest : rest = []
      · rw [if_pos hrest]
        subst hrest
        constructor
        · intro h; cases h
        · rintro ⟨t, hs, hne, hdig, -, -⟩
          rcases hs with hs | hs
          · subst hc
            rw [← hs] at hdig
            have := hdig 43 (List.mem_cons_self _ _)
            omega
          · injection hs with hh1 hh2
            exact absurd hh2.symm hne
      · rw [if_neg hrest]
        rw [parseU32Go_ok_iff rest 0 hW n]
        constructor
        · rintro ⟨h1, h2, h3⟩
          exact ⟨rest, Or.inr (by rw [hc]), hrest, h1, h2, h3⟩
        · rintro ⟨t, hs, hne, hdig, hlt, hval⟩
          rcases hs with hs | hs
          · subst hc
            rw [← hs] at hdig
            have := hdig 43 (List.mem_cons_self _ _)
            omega
          · injection hs with hh1 hh2
            subst hh2
            exact ⟨hdig, hlt, hval⟩
    · rw [if_neg hc]
      rw [parseU32Go_ok_iff (c :: rest) 0 hW n]
      constructor
      · rintro ⟨h1, h2, h3⟩
        exact ⟨c :: rest, Or.inl rfl, by simp, h1, h2, h3⟩
      · rintro ⟨t, hs, hne, hdig, hlt, hval⟩
        rcases hs with hs | hs
        · subst hs
          exact ⟨hdig, hlt, hval⟩
        · injection hs with hh1 hh2
          exact absurd hh1 hc

/-- Input for the C3 counterexample: a qualifying row whose `OrdQty` field is
`"+7"`. -/
def c3Text : List Nat :=
  joinBy nlB
    [headerLine,
     joinBy commaB [toClntB, buyB, [43, 55], [49], [49], aaaB],
     []]

/-- C3 counterexample: `"+5"` contains the byte `'+'`, which is outside
`'0'..'9'`, yet it parses to 5 rather than aborting; a whole run whose
qualifying row carries the quantity `"+7"` completes normally with total 7. -/
theorem C3_counterexample :
    parse_u32 [43, 53] = .ok 5 ∧
    ¬(∀ c ∈ [43, 53], 48 ≤ c ∧ c ≤ 57) ∧
    calc_key_ref c3Text = .ok [(aaaB, ⟨1, 1, 0, 7⟩)] :=
  ⟨rfl, by decide, rfl⟩

/-- ASCII bytes of `"4294967295"` (`u32::MAX`). -/
def u32MaxB : List Nat := [52, 50, 57, 52, 57, 54, 55, 50, 57, 53]

/-- Input for the C4 counterexample: two qualifying rows whose per-row
maximum quantity is `u32::MAX` each. -/
def c4Text : List Nat :=
  joinBy nlB
    [headerLine,
     joinBy commaB [toClntB, buyB, u32MaxB, [48], [48], aaaB],
     joinBy commaB [toClntB, buyB, u32MaxB, [48], [48], aaaB],
     []]

/-- C4 counterexample: `total_qty` is a `u32`, not a 64-bit counter; two rows
of `4294967295` leave `4294967294` in the accumulator (the sum mod `2^32`),
not the true sum `8589934590`, which a 64-bit counter would represent. -/
theorem C4_counterexample :
    calc_key_ref c4Text = .ok [(aaaB, ⟨2, 2, 0, 4294967294⟩)] ∧
    (4294967294 : Nat) ≠ 4294967295 + 4294967295 :=
  ⟨rfl, by decide⟩

/-- C4 (amended): the `total_qty` accumulator is 32-bit — every successful
row update stores `(old + max(ord, wrk, exc)) mod 2^32`, which is below
`2^32` and equals the exact sum only while that sum stays below `2^32`. -/
theorem C4_total_qty_is_u32 (idx : ColIndices) (cols : List (List Nat))
    (pd pd' : ProductData) (h : pd.process_row cols idx = .ok pd') :
    pd'.total_qty < W32 ∧
    ∃ o w e : Nat, qtyAt cols idx.ordqty = .ok o ∧ qtyAt cols idx.wrkqty = .ok w ∧
      qtyAt cols idx.excqty = .ok e ∧
      pd'.total_qty = (pd.total_qty + max o (max w e)) % W32 ∧
      (pd.total_qty + max o (max w e) < W32 →
        pd'.total_qty = pd.total_qty + max o (max w e)) := by
  unfold ProductData.process_row at h
  cases hbs : getCol cols idx.bs with
  | error e => rw [hbs, errBind] at h; cases h
  | ok bs =>
    rw [hbs, okBind] at h
    cases ho : qtyAt cols idx.ordqty with
    | error e => rw [ho, errBind] at h; cases h
    | ok o =>
      rw [ho, okBind] at h
      cases hw : qtyAt cols idx.wrkqty with
      | error e => rw [hw, errBind] at h; cases h
      | ok w =>
        rw [hw, okBind] at h
        cases he : qtyAt cols idx.excqty with
        | error e => rw [he, errBind] at h; cases h
        | ok e =>
          rw [he, okBind] at h
          injection h with h
          subst h
          refine ⟨Nat.mod_lt _ (by decide), o, w, e, rfl, rfl, rfl, rfl, fun hlt => Nat.mod_eq_of_lt hlt⟩

/-- Witness for C4 (amended), at the row `ToClnt,Buy,10,5,8,AAA`. -/
theorem C4_total_qty_is_u32_witness :
    ∃ pd' : ProductData,
      ProductData.process_row ⟨0, 0, 0, 0⟩ [toClntB, buyB, [49, 48], [53], [56], aaaB] ⟨0, 1, 2, 3, 4, 5⟩ = .ok pd' ∧
      pd'.total_qty < W32 ∧
      ∃ o w e : Nat,
        qtyAt [toClntB, buyB, [49, 48], [53], [56], aaaB] (2 : Nat) = .ok o ∧
        qtyAt [toClntB, buyB, [49, 48], [53], [56], aaaB] (3 : Nat) = .ok w ∧
        qtyAt [toClntB, buyB, [49, 48], [53], [56], aaaB] (4 : Nat) = .ok e ∧
        pd'.total_qty = ((0 : Nat) + max o (max w e)) % W32 ∧
        ((0 : Nat) + max o (max w e) < W32 → pd'.total_qty = 0 + max o (max w e)) :=
  ⟨⟨1, 1, 0, 10⟩, rfl,
    C4_total_qty_is_u32 ⟨0, 1, 2, 3, 4, 5⟩ [toClntB, buyB, [49, 48], [53], [56], aaaB]
      ⟨0, 0, 0, 0⟩ ⟨1, 1, 0, 10⟩ rfl⟩

/-! ## Short rows -/

/-- The highest column index the row loop may access. -/
def maxRequired (idx : ColIndices) : Nat :=
  max idx.source (max idx.bs (max idx.ordqty (max idx.wrkqty (max idx.excqty idx.prod))))

theorem rowClass_ok_bounds {idx : ColIndices} {line : List Nat}
    {r : Option (List Nat × RowEff)} (hne : line ≠ [])
    (hsrc : (splitByte commaB line).get? idx.source = some toClntB)
    (h : rowClass idx line = .ok r) :
    idx.prod < (splitByte commaB line).length ∧
    idx.bs < (splitByte commaB line).length ∧
    idx.ordqty < (splitByte commaB line).length ∧
    idx.wrkqty < (splitByte commaB line).length ∧
    idx.excqty < (splitByte commaB line).length := by
  have hg : getCol (splitByte commaB line) idx.source = .ok toClntB := by
    unfold getCol
    rw [hsrc]
  simp only [rowClass] at h
  rw [if_neg hne, hg, okBind, if_pos rfl] at h
  cases hkey : getCol (splitByte commaB line) idx.prod with
  | error e => rw [hkey, errBind] at h; cases h
  | ok key =>
    rw [hkey, okBind] at h
    cases hbs : getCol (splitByte commaB line) idx.bs with
    | error e => rw [hbs, errBind] at h; cases h
    | ok bs =>
      rw [hbs, okBind] at h
      cases ho : qtyAt (splitByte commaB line) idx.ordqty with
      | error e => rw [ho, errBind] at h; cases h
      | ok o =>
        rw [ho, okBind] at h
        cases hw : qtyAt (splitByte commaB line) idx.wrkqty with
        | error e => rw [hw, errBind] at h; cases h
        | ok w =>
          rw [hw, okBind] at h
          cases he : qtyAt (splitByte commaB line) idx.excqty with
          | error e => rw [he, errBind] at h; cases h
          | ok e =>
            have hb1 : idx.prod < (splitByte commaB line).length := by
              unfold getCol at hkey
              cases hq : (splitByte commaB line).get? idx.prod with
              | none => rw [hq] at hkey; cases hkey
              | some v => exact (List.get?_eq_some.mp hq).1
            have hb2 : idx.bs < (splitByte commaB line).length := by
              unfold getCol at hbs
              cases hq : (splitByte commaB line).get? idx.bs with
              | none => rw [hq] at hbs; cases hbs
              | some v => exact (List.get?_eq_some.mp hq).1
            have hqty : ∀ i o', qtyAt (splitByte commaB line) i = .ok o' →
                i < (splitByte commaB line).length := by
              intro i o' hq
              unfold qtyAt at hq
              cases hg2 : getCol (splitByte commaB line) i with
              | error e2 => rw [hg2, errBind] at hq; cases hq
              | ok f =>
                unfold getCol at hg2
                cases hq2 : (splitByte commaB line).get? i with
                | none => rw [hq2] at hg2; cases hg2
                | some v => exact (List.get?_eq_some.mp hq2).1
            exact ⟨hb1, hb2, hqty _ _ ho, hqty _ _ hw, hqty _ _ he⟩

theorem rowClass_short_error (idx : ColIndices) (line : List Nat) (hne : line ≠ [])
    (hshort : (splitByte commaB line).length ≤ maxRequired idx)
    (habort : (splitByte commaB line).length ≤ idx.source ∨
      (splitByte commaB line).get? idx.source = some toClntB) :
    ∃ e, rowClass idx line = .error e := by
  rcases habort with hsrc | hsrc
  · refine ⟨.indexOutOfBounds, ?_⟩
    simp only [rowClass]
    rw [if_neg hne]
    have hg : getCol (splitByte commaB line) idx.source = .error .indexOutOfBounds := by
      unfold getCol
      rw [List.get?_eq_none.mpr hsrc]
    rw [hg, errBind]
  · cases hr : rowClass idx line with
    | error e => exact ⟨e, rfl⟩
    | ok r =>
      exfalso
      have hb := rowClass_ok_bounds hne hsrc hr
      have hslt : idx.source < (splitByte commaB line).length :=
        (List.get?_eq_some.mp hsrc).1
      unfold maxRequired at hshort
      rw [le_max_iff, le_max_iff, le_max_iff, le_max_iff, le_max_iff] at hshort
      omega

/-- C2 (amended): a data row with fewer fields than needed to reach the
highest required column index aborts the run — with no table reported at all —
PROVIDED the row is forced to touch an out-of-range column: either its
`Source` index is itself out of range, or its `Source` field reads `ToClnt`
(the counterexample shows a short row that fails both conditions is silently
skipped instead). -/
theorem C2_short_row_aborts (text hdr : List Nat) (rest : List (List Nat))
    (idx : ColIndices) (n : Nat) (line : List Nat)
    (hsplit : splitByte nlB text = hdr :: rest)
    (hh : ColIndices.from_header hdr = .ok (idx, n))
    (hline : line ∈ rest) (hne : line ≠ [])
    (hshort : (splitByte commaB line).length ≤ maxRequired idx)
    (habort : (splitByte commaB line).length ≤ idx.source ∨
      (splitByte commaB line).get? idx.source = some toClntB) :
    ∃ e, calc_key_ref text = .error e := by
  obtain ⟨e, he⟩ := rowClass_short_error idx line hne hshort habort
  obtain ⟨e', he'⟩ := foldlM_stepLine_error idx hline he ([] : Table)
  refine ⟨e', ?_⟩
  unfold calc_key_ref
  rw [hsplit]
  simp only [calcLines, hh, okBind]
  exact he'

/-- Witness for C2 (amended): the run on a header plus the 3-field qualifying
row `ToClnt,Buy,1` aborts. -/
theorem C2_short_row_aborts_witness :
    ∃ e, calc_key_ref (joinBy nlB [headerLine, joinBy commaB [toClntB, buyB, [49]], []]) = .error e :=
  C2_short_row_aborts
    (joinBy nlB [headerLine, joinBy commaB [toClntB, buyB, [49]], []])
    headerLine [joinBy commaB [toClntB, buyB, [49]], []]
    ⟨0, 1, 2, 3, 4, 5⟩ 6 (joinBy commaB [toClntB, buyB, [49]])
    (by decide) rfl (by decide) (by decide) (by decide) (Or.inr (by decide))

/-- Input for the C2 counterexample: the standard header, then the 2-field
row `Other,x`, then a qualifying row. -/
def c2Text : List Nat :=
  joinBy nlB
    [headerLine,
     joinBy commaB [otherB, [120]],
     joinBy commaB [toClntB, buyB, [49], [49], [49], aaaB],
     []]

/-- C2 counterexample: the input's header resolves with highest required
column index 5, and the data region contains a row with only 2 fields, yet
the run does NOT abort — the short row is silently skipped and the
accumulator of the row AFTER it is reported. -/
theorem C2_counterexample :
    ColIndices.from_header headerLine = .ok (⟨0, 1, 2, 3, 4, 5⟩, 6) ∧
    maxRequired ⟨0, 1, 2, 3, 4, 5⟩ = 5 ∧
    (∃ line ∈ (splitByte nlB c2Text).tail,
      line ≠ [] ∧ (splitByte commaB line).length = 2) ∧
    calc_key_ref c2Text = .ok [(aaaB, ⟨1, 1, 0, 1⟩)] :=
  ⟨rfl, by decide, by decide, rfl⟩

/-! ## The buy/sell vs count invariant -/

/-- C6 (amended): (1) in every completed run, an entity satisfies
`buys + sells ≤ count` provided its number of qualifying rows stays below
`2^32` (all three counters are `u32` and wrap, so the unrestricted claim
fails only past `2^32` rows, see the counterexample); (2) a qualifying row
whose direction field is neither `Buy` nor `Sell` increments `count` (mod
`2^32`) and adds the per-row maximum to `total_qty`, but leaves `buys` and
`sells` untouched. -/
theorem C6_buy_sell_le_count :
    (∀ (text hdr : List Nat) (rest : List (List Nat)) (idx : ColIndices) (n : Nat)
       (tab : Table) (k : List Nat) (pd : ProductData),
      splitByte nlB text = hdr :: rest →
      ColIndices.from_header hdr = .ok (idx, n) →
      calc_key_ref text = .ok tab →
      lookupA tab k = some pd →
      countQual idx rest k < W32 →
      pd.buys + pd.sells ≤ pd.count) ∧
    (∀ (idx : ColIndices) (cols : List (List Nat)) (pd pd' : ProductData) (bs : List Nat),
      getCol cols idx.bs = .ok bs → bs ≠ buyB → bs ≠ sellB →
      pd.process_row cols idx = .ok pd' →
      pd'.count = (pd.count + 1) % W32 ∧ pd'.buys = pd.buys ∧ pd'.sells = pd.sells ∧
      ∃ o w e : Nat, qtyAt cols idx.ordqty = .ok o ∧ qtyAt cols idx.wrkqty = .ok w ∧
        qtyAt cols idx.excqty = .ok e ∧
        pd'.total_qty = (pd.total_qty + max o (max w e)) % W32) := by
  constructor
  · intro text hdr rest idx n tab k pd hsplit hh hcalc hlk hq
    unfold calc_key_ref at hcalc
    rw [hsplit] at hcalc
    simp only [calcLines, hh, okBind] at hcalc
    obtain ⟨h0, hpos⟩ := foldlM_stepLine_counts idx rest [] tab wfTable_nil hcalc k
    rcases Nat.eq_zero_or_pos (countQual idx rest k) with hz | hz
    · rw [h0 hz] at hlk
      cases hlk
    · obtain ⟨pd₁, hpd₁, hc, hb, hs⟩ := hpos hz
      rw [hlk] at hpd₁
      injection hpd₁ with hpd₁
      subst hpd₁
      have hbase : ((lookupA ([] : Table) k).getD default) = (⟨0, 0, 0, 0⟩ : ProductData) := rfl
      rw [hbase] at hc hb hs
      simp only [Nat.zero_add] at hc hb hs
      have hble : countBuy idx rest k ≤ countQual idx rest k := countBuy_le_countQual idx rest k
      have hboth : countBuy idx rest k + countSell idx rest k ≤ countQual idx rest k :=
        countBuy_add_countSell_le_countQual idx rest k
      rw [Nat.mod_eq_of_lt hq] at hc
      rw [Nat.mod_eq_of_lt (by omega)] at hb
      rw [Nat.mod_eq_of_lt (by omega)] at hs
      omega
  · intro idx cols pd pd' bs hbs hnb hns h
    unfold ProductData.process_row at h
    rw [hbs, okBind] at h
    cases ho : qtyAt cols idx.ordqty with
    | error e => rw [ho, errBind] at h; cases h
    | ok o =>
      rw [ho, okBind] at h
      cases hw : qtyAt cols idx.wrkqty with
      | error e => rw [hw, errBind] at h; cases h
      | ok w =>
        rw [hw, okBind] at h
        cases he : qtyAt cols idx.excqty with
        | error e => rw [he, errBind] at h; cases h
        | ok e =>
          rw [he, okBind] at h
          injection h with h
          subst h
          refine ⟨rfl, ?_, ?_, o, w, e, rfl, rfl, rfl, rfl⟩
          · show (if bs = buyB then (pd.buys + 1) % W32 else pd.buys) = pd.buys
            rw [if_neg hnb]
          · show (if bs = buyB then pd.sells
              else if bs = sellB then (pd.sells + 1) % W32 else pd.sells) = pd.sells
            rw [if_neg hnb, if_neg hns]

/-- The columns of the row `ToClnt,Hold,1,2,3,AAA`. -/
def holdCols : List (List Nat) := [toClntB, holdB, [49], [50], [51], aaaB]

/-- Witness for C6: on the scenario run, entity `AAA` satisfies
`1 + 1 ≤ 2`; and processing the `Hold` row from a fresh accumulator gives
count 1, buys 0, sells 0 and total 3. -/
theorem C6_buy_sell_le_count_witness :
    ((1 : Nat) + 1 ≤ 2) ∧
    ((1 : Nat) = (0 + 1) % W32 ∧ (0 : Nat) = 0 ∧ (0 : Nat) = 0 ∧
      ∃ o w e : Nat, qtyAt holdCols 2 = .ok o ∧ qtyAt holdCols 3 = .ok w ∧
        qtyAt holdCols 4 = .ok e ∧ (3 : Nat) = (0 + max o (max w e)) % W32) := by
  constructor
  · exact C6_buy_sell_le_count.1 scenarioText headerLine
      [joinBy commaB [toClntB, buyB, [49, 48], [53], [56], aaaB],
       joinBy commaB [toClntB, sellB, [51], [51], [57], aaaB],
       joinBy commaB [otherB, buyB, [49, 48, 48], [49], [49], aaaB],
       []]
      ⟨0, 1, 2, 3, 4, 5⟩ 6 [(aaaB, ⟨2, 1, 1, 19⟩)] aaaB ⟨2, 1, 1, 19⟩
      (by decide) rfl rfl rfl (by decide)
  · exact C6_buy_sell_le_count.2 ⟨0, 1, 2, 3, 4, 5⟩ holdCols ⟨0, 0, 0, 0⟩ ⟨1, 0, 0, 3⟩ holdB
      rfl (by decide) (by decide) rfl

/-! ## Duplicate header names: last occurrence wins -/

theorem lastIdxOf_get {l : List (List Nat)} {x : List Nat} {i : Nat}
    (h : lastIdxOf l x = some i) :
    l.get? i = some x ∧ ∀ j, i < j → l.get? j ≠ some x := by
  induction l generalizing i with
  | nil => cases h
  | cons a t ih =>
    simp only [lastIdxOf] at h
    cases hj : lastIdxOf t x with
    | some j =>
      rw [hj] at h
      injection h with h
      subst h
      obtain ⟨h1, h2⟩ := ih hj
      refine ⟨by simpa using h1, ?_⟩
      intro j' hj'
      cases j' with
      | zero => omega
      | succ j'' =>
        simpa using h2 j'' (by omega)
    | none =>
      rw [hj] at h
      by_cases ha : a = x
      · rw [if_pos ha] at h
        injection h with h
        subst h
        refine ⟨by simpa using ha, ?_⟩
        intro j hj0
        cases j with
        | zero => omega
        | succ j' =>
          simp only [List.get?_cons_succ]
          intro hc
          exact (lastIdxOf_eq_none_iff t x).mp hj (List.get?_mem hc)
      · rw [if_neg ha] at h
        cases h

/-- `i` is the position of the last occurrence of `nm` among `cols`. -/
def isLastOccurrence (cols : List (List Nat)) (nm : List Nat) (i : Nat) : Prop :=
  cols.get? i = some nm ∧ ∀ j, i < j → cols.get? j ≠ some nm

/-- The six required header names. -/
def requiredNames : List (List Nat) :=
  [sourceB, bsB, ordQtyB, wrkQtyB, excQtyB, prodB]

theorem lastIdxOf_isSome_of_mem {l : List (List Nat)} {x : List Nat} (h : x ∈ l) :
    ∃ i, lastIdxOf l x = some i := by
  cases hj : lastIdxOf l x with
  | some i => exact ⟨i, rfl⟩
  | none => exact absurd h ((lastIdxOf_eq_none_iff l x).mp hj)

/-- C10: duplicated required names are not an error — whenever all six names
occur in the header (with any multiplicities), resolution succeeds, returns
the column count, and resolves every required name to the position of its
LAST occurrence. -/
theorem C10_last_occurrence_wins (header : List Nat)
    (hpres : ∀ nm ∈ requiredNames, nm ∈ splitByte commaB header) :
    ∃ idx : ColIndices,
      ColIndices.from_header header = .ok (idx, (splitByte commaB header).length) ∧
      isLastOccurrence (splitByte commaB header) sourceB idx.source ∧
      isLastOccurrence (splitByte commaB header) bsB idx.bs ∧
      isLastOccurrence (splitByte commaB header) ordQtyB idx.ordqty ∧
      isLastOccurrence (splitByte commaB header) wrkQtyB idx.wrkqty ∧
      isLastOccurrence (splitByte commaB header) excQtyB idx.excqty ∧
      isLastOccurrence (splitByte commaB header) prodB idx.prod := by
  obtain ⟨s, hsrc⟩ := lastIdxOf_isSome_of_mem (hpres sourceB (by simp [requiredNames]))
  obtain ⟨b, hbs⟩ := lastIdxOf_isSome_of_mem (hpres bsB (by simp [requiredNames]))
  obtain ⟨o, ho⟩ := lastIdxOf_isSome_of_mem (hpres ordQtyB (by simp [requiredNames]))
  obtain ⟨w, hw⟩ := lastIdxOf_isSome_of_mem (hpres wrkQtyB (by simp [requiredNames]))
  obtain ⟨e, he⟩ := lastIdxOf_isSome_of_mem (hpres excQtyB (by simp [requiredNames]))
  obtain ⟨p, hp⟩ := lastIdxOf_isSome_of_mem (hpres prodB (by simp [requiredNames]))
  refine ⟨⟨s, b, o, w, e, p⟩, ?_, ?_, ?_, ?_, ?_, ?_, ?_⟩
  · rw [from_header_eq, hsrc, hbs, ho, hw, he, hp]
  · exact lastIdxOf_get hsrc
  · exact lastIdxOf_get hbs
  · exact lastIdxOf_get ho
  · exact lastIdxOf_get hw
  · exact lastIdxOf_get he
  · exact lastIdxOf_get hp

/-- A header in which `Prod` appears twice. -/
def dupHeader : List Nat :=
  joinBy commaB [sourceB, bsB, ordQtyB, wrkQtyB, excQtyB, prodB, prodB]

/-- Witness for C10: with `Prod` duplicated, resolution succeeds and `Prod`
resolves to index 6, the later of its two occurrences. -/
theorem C10_last_occurrence_wins_witness :
    ∃ idx : ColIndices,
      ColIndices.from_header dupHeader = .ok (idx, (splitByte commaB dupHeader).length) ∧
      isLastOccurrence (splitByte commaB dupHeader) sourceB idx.source ∧
      isLastOccurrence (splitByte commaB dupHeader) bsB idx.bs ∧
      isLastOccurrence (splitByte commaB dupHeader) ordQtyB idx.ordqty ∧
      isLastOccurrence (splitByte commaB dupHeader) wrkQtyB idx.wrkqty ∧
      isLastOccurrence (splitByte commaB dupHeader) excQtyB idx.excqty ∧
      isLastOccurrence (splitByte commaB dupHeader) prodB idx.prod :=
  C10_last_occurrence_wins dupHeader (by decide)

/-! ## Header-permutation machinery -/

theorem joinBy_cons_cons (d : Nat) (a b : List Nat) (t : List (List Nat)) :
    joinBy d (a :: b :: t) = a ++ d :: joinBy d (b :: t) := by
  simp [joinBy, List.intercalate, List.intersperse_cons_cons]

theorem joinBy_single (d : Nat) (a : List Nat) : joinBy d [a] = a := by
  simp [joinBy, List.intercalate]

theorem not_mem_joinBy {d2 d : Nat} {parts : List (List Nat)} (hne : d2 ≠ d)
    (hf : ∀ f ∈ parts, d2 ∉ f) : d2 ∉ joinBy d parts := by
  induction parts with
  | nil => simp [joinBy, List.intercalate]
  | cons a t ih =>
    cases t with
    | nil =>
      rw [joinBy_single]
      exact hf a (by simp)
    | cons b t2 =>
      rw [joinBy_cons_cons]
      simp only [List.mem_append, List.mem_cons, not_or]
      refine ⟨hf a (by simp), hne, ?_⟩
      exact fun h => ih (fun f hfm => hf f (List.mem_cons_of_mem a hfm)) h

theorem joinBy_ne_nil_of_two {d : Nat} {parts : List (List Nat)}
    (h : 2 ≤ parts.length) : joinBy d parts ≠ [] := by
  cases parts with
  | nil => simp at h
  | cons a t =>
    cases t with
    | nil => simp at h
    | cons b t2 =>
      rw [joinBy_cons_cons]
      intro hcontra
      obtain ⟨-, h2⟩ := List.append_eq_nil.mp hcontra
      cases h2

/-- Rearrangement of a record's fields by a list of column indices. -/
def permute (p : List Nat) (l : List (List Nat)) : List (List Nat) :=
  p.map (fun i => l.getD i [])

/-- A CSV input from a header record and data records. -/
def buildInput (hdr : List (List Nat)) (rows : List (List (List Nat))) : List Nat :=
  joinBy nlB (joinBy commaB hdr :: rows.map (joinBy commaB))

theorem map_getD_range (l : List (List Nat)) :
    (List.range l.length).map (fun i => l.getD i []) = l := by
  induction l with
  | nil => rfl
  | cons a t ih =>
    rw [List.length_cons, List.range_succ_eq_map]
    simp only [List.map_cons, List.map_map]
    have hcomp : ((fun i => (a :: t).getD i []) ∘ (· + 1)) = (fun i => t.getD i []) := by
      funext i
      rfl
    rw [hcomp, ih]
    rfl

theorem permute_perm {p : List Nat} {l : List (List Nat)}
    (hp : p.Perm (List.range l.length)) : (permute p l).Perm l := by
  have h1 : (permute p l).Perm (permute (List.range l.length) l) := hp.map _
  simp only [permute] at h1
  rw [map_getD_range] at h1
  exact h1

theorem get?_unique_of_count_le_one {l : List (List Nat)} {x : List Nat}
    (hc : l.count x ≤ 1) :
    ∀ i1 i2, l.get? i1 = some x → l.get? i2 = some x → i1 = i2 := by
  induction l with
  | nil => intro i1 i2 h1; cases h1
  | cons a t ih =>
    intro i1 i2 h1 h2
    rw [List.count_cons] at hc
    cases i1 with
    | zero =>
      cases i2 with
      | zero => rfl
      | succ j =>
        exfalso
        simp only [List.get?_cons_zero] at h1
        injection h1 with h1
        simp only [List.get?_cons_succ] at h2
        have hmem : x ∈ t := List.get?_mem h2
        have hpos : 0 < t.count x := List.count_pos_iff.mpr hmem
        have hbeq : (a == x) = true := by rw [h1]; exact beq_self_eq_true x
        rw [if_pos hbeq] at hc
        omega
    | succ j =>
      cases i2 with
      | zero =>
        exfalso
        simp only [List.get?_cons_zero] at h2
        injection h2 with h2
        simp only [List.get?_cons_succ] at h1
        have hmem : x ∈ t := List.get?_mem h1
        have hpos : 0 < t.count x := List.count_pos_iff.mpr hmem
        have hbeq : (a == x) = true := by rw [h2]; exact beq_self_eq_true x
        rw [if_pos hbeq] at hc
        omega
      | succ j2 =>
        simp only [List.get?_cons_succ] at h1 h2
        have := ih (by omega) j j2 h1 h2
        omega

theorem lastIdxOf_permute {hdr : List (List Nat)} {p : List Nat} {nm : List Nat} {i : Nat}
    (hp : p.Perm (List.range hdr.length))
    (hcount : hdr.count nm ≤ 1)
    (hlast : lastIdxOf hdr nm = some i) :
    ∃ j, lastIdxOf (permute p hdr) nm = some j ∧ p.get? j = some i := by
  have hget : hdr.get? i = some nm := (lastIdxOf_get hlast).1
  have hmem : nm ∈ hdr := List.get?_mem hget
  have hmem' : nm ∈ permute p hdr := ((permute_perm hp).mem_iff).mpr hmem
  obtain ⟨j, hj⟩ := lastIdxOf_isSome_of_mem hmem'
  refine ⟨j, hj, ?_⟩
  have hgetj : (permute p hdr).get? j = some nm := (lastIdxOf_get hj).1
  rw [permute, List.get?_map] at hgetj
  cases hpj : p.get? j with
  | none => rw [hpj] at hgetj; cases hgetj
  | some ij =>
    rw [hpj] at hgetj
    simp only [Option.map_some'] at hgetj
    injection hgetj with hgetj
    have hij_lt : ij < hdr.length := by
      have h1 : ij ∈ p := List.get?_mem hpj
      have h2 : ij ∈ List.range hdr.length := (hp.mem_iff).mp h1
      exact List.mem_range.mp h2
    have hq : hdr.get? ij = some nm := by
      cases hq2 : hdr.get? ij with
      | none =>
        exfalso
        rw [List.get?_eq_none] at hq2
        omega
      | some v =>
        have hv : hdr.getD ij [] = v := by
          rw [List.getD_eq_get?, hq2]
          rfl
        rw [hv] at hgetj
        rw [hgetj]
    have heq : ij = i := get?_unique_of_count_le_one hcount ij i hq hget
    rw [heq]

theorem getCol_permute {r : List (List Nat)} {p : List Nat} {j i : Nat}
    (hpj : p.get? j = some i) (hil : i < r.length) :
    getCol (permute p r) j = getCol r i := by
  unfold getCol permute
  rw [List.get?_map, hpj]
  simp only [Option.map_some']
  cases hq : r.get? i with
  | none =>
    exfalso
    rw [List.get?_eq_none] at hq
    omega
  | some v =>
    have hv : r.getD i [] = v := by
      rw [List.getD_eq_get?, hq]
      rfl
    rw [hv]

theorem stepLine_congr (idx idx' : ColIndices) (tab : Table) (l l' : List Nat)
    (hne : l ≠ []) (hne' : l' ≠ [])
    (hsrc : getCol (splitByte commaB l') idx'.source = getCol (splitByte commaB l) idx.source)
    (hprod : getCol (splitByte commaB l') idx'.prod = getCol (splitByte commaB l) idx.prod)
    (hbs : getCol (splitByte commaB l') idx'.bs = getCol (splitByte commaB l) idx.bs)
    (hord : getCol (splitByte commaB l') idx'.ordqty = getCol (splitByte commaB l) idx.ordqty)
    (hwrk : getCol (splitByte commaB l') idx'.wrkqty = getCol (splitByte commaB l) idx.wrkqty)
    (hexc : getCol (splitByte commaB l') idx'.excqty = getCol (splitByte commaB l) idx.excqty) :
    stepLine idx' tab l' = stepLine idx tab l := by
  simp only [stepLine, ProductData.process_row, qtyAt]
  rw [if_neg hne', if_neg hne, hsrc, hprod, hbs, hord, hwrk, hexc]

theorem foldlM_stepLine_pointwise (idx idx' : ColIndices) :
    ∀ (L' L : List (List Nat)),
      List.Forall₂ (fun l' l => ∀ tab : Table, stepLine idx' tab l' = stepLine idx tab l) L' L →
      ∀ t : Table, L'.foldlM (stepLine idx') t = L.foldlM (stepLine idx) t := by
  intro L' L hall
  induction hall with
  | nil => intro t; rfl
  | cons hrel hall2 ih =>
    intro t
    simp only [List.foldlM_cons]
    rw [hrel t]
    cases hs : stepLine idx t _ with
    | error e => simp [errBind]
    | ok t2 => simp only [okBind]; exact ih t2

theorem forall2_map_map {α β γ : Type} (f : α → β) (g : α → γ) (R : β → γ → Prop)
    (l : List α) (h : ∀ a ∈ l, R (f a) (g a)) : List.Forall₂ R (l.map f) (l.map g) := by
  induction l with
  | nil => constructor
  | cons a t ih =>
    simp only [List.map_cons]
    exact List.Forall₂.cons (h a (by simp)) (ih (fun x hx => h x (List.mem_cons_of_mem a hx)))

/-- C8 (amended): header resolution is order-independent. If the header
contains each of the six required names (exactly once — see the
counterexample for why duplicates break this), then permuting the header
columns and every data row by the same index permutation leaves the
aggregation result unchanged. Fields may not contain the `','`/`'\n'`
delimiters, and each data row has one field per header column. -/
theorem C8_header_permutation (hdr : List (List Nat)) (rows : List (List (List Nat)))
    (p : List Nat)
    (hp : p.Perm (List.range hdr.length))
    (hhf : ∀ f ∈ hdr, commaB ∉ f ∧ nlB ∉ f)
    (hrf : ∀ r ∈ rows, ∀ f ∈ r, commaB ∉ f ∧ nlB ∉ f)
    (hlen : ∀ r ∈ rows, r.length = hdr.length)
    (hpres : ∀ nm ∈ requiredNames, nm ∈ hdr)
    (hnodup : ∀ nm ∈ requiredNames, hdr.count nm ≤ 1) :
    calc_key_ref (buildInput (permute p hdr) (rows.map (permute p))) =
      calc_key_ref (buildInput hdr rows) := by
  have hplen : p.length = hdr.length := by
    have h := hp.length_eq
    rwa [List.length_range] at h
  obtain ⟨is', his⟩ := lastIdxOf_isSome_of_mem (hpres sourceB (by simp [requiredNames]))
  obtain ⟨ib, hib⟩ := lastIdxOf_isSome_of_mem (hpres bsB (by simp [requiredNames]))
  obtain ⟨io, hio⟩ := lastIdxOf_isSome_of_mem (hpres ordQtyB (by simp [requiredNames]))
  obtain ⟨iw, hiw⟩ := lastIdxOf_isSome_of_mem (hpres wrkQtyB (by simp [requiredNames]))
  obtain ⟨ie, hie⟩ := lastIdxOf_isSome_of_mem (hpres excQtyB (by simp [requiredNames]))
  obtain ⟨ip, hip⟩ := lastIdxOf_isSome_of_mem (hpres prodB (by simp [requiredNames]))
  have hgs := (lastIdxOf_get his).1
  have hgb := (lastIdxOf_get hib).1
  have hgo := (lastIdxOf_get hio).1
  have hgw := (lastIdxOf_get hiw).1
  have hge := (lastIdxOf_get hie).1
  have hgp := (lastIdxOf_get hip).1
  have hlts : is' < hdr.length := (List.get?_eq_some.mp hgs).1
  have hltb : ib < hdr.length := (List.get?_eq_some.mp hgb).1
  have hlto : io < hdr.length := (List.get?_eq_some.mp hgo).1
  have hltw : iw < hdr.length := (List.get?_eq_some.mp hgw).1
  have hlte : ie < hdr.length := (List.get?_eq_some.mp hge).1
  have hltp : ip < hdr.length := (List.get?_eq_some.mp hgp).1
  have hn2 : 2 ≤ hdr.length := by
    have hne : is' ≠ ip := by
      intro h
      rw [h, hgp] at hgs
      injection hgs with hgs
      exact absurd hgs (by decide)
    omega
  have hdne : hdr ≠ [] := by
    intro h
    rw [h] at hn2
    simp at hn2
  obtain ⟨js, hjs, hpjs⟩ := lastIdxOf_permute hp (hnodup sourceB (by simp [requiredNames])) his
  obtain ⟨jb, hjb, hpjb⟩ := lastIdxOf_permute hp (hnodup bsB (by simp [requiredNames])) hib
  obtain ⟨jo, hjo, hpjo⟩ := lastIdxOf_permute hp (hnodup ordQtyB (by simp [requiredNames])) hio
  obtain ⟨jw, hjw, hpjw⟩ := lastIdxOf_permute hp (hnodup wrkQtyB (by simp [requiredNames])) hiw
  obtain ⟨je, hje, hpje⟩ := lastIdxOf_permute hp (hnodup excQtyB (by simp [requiredNames])) hie
  obtain ⟨jp, hjp, hpjp⟩ := lastIdxOf_permute hp (hnodup prodB (by simp [requiredNames])) hip
  have hgetD_mem : ∀ i, i ∈ p → hdr.getD i [] ∈ hdr := by
    intro i hi
    have hilt : i < hdr.length := List.mem_range.mp ((hp.mem_iff).mp hi)
    cases hq : hdr.get? i with
    | none =>
      exfalso
      rw [List.get?_eq_none] at hq
      omega
    | some v =>
      have hv : hdr.getD i [] = v := by
        rw [List.getD_eq_get?, hq]
        rfl
      rw [hv]
      exact List.get?_mem hq
  have hpermfields : ∀ f ∈ permute p hdr, commaB ∉ f ∧ nlB ∉ f := by
    intro f hf
    obtain ⟨i, hi, hif⟩ := List.mem_map.mp hf
    subst hif
    exact hhf _ (hgetD_mem i hi)
  have hpn : (permute p hdr).length = hdr.length := by
    simp [permute, hplen]
  have hlines : splitByte nlB (buildInput hdr rows) =
      joinBy commaB hdr :: rows.map (joinBy commaB) := by
    unfold buildInput
    refine splitByte_joinBy (by simp) ?_
    intro l hl
    rcases List.mem_cons.mp hl with h | h
    · subst h
      exact not_mem_joinBy (by decide) (fun f hf => (hhf f hf).2)
    · obtain ⟨r, hr, hrl⟩ := List.mem_map.mp h
      subst hrl
      exact not_mem_joinBy (by decide) (fun f hf => (hrf r hr f hf).2)
  have hrowfields' : ∀ r ∈ rows, ∀ f ∈ permute p r, commaB ∉ f ∧ nlB ∉ f := by
    intro r hr f hf
    obtain ⟨i, hi, hif⟩ := List.mem_map.mp hf
    subst hif
    have hilt : i < hdr.length := List.mem_range.mp ((hp.mem_iff).mp hi)
    have hilt2 : i < r.length := by rw [hlen r hr]; exact hilt
    cases hq : r.get? i with
    | none =>
      exfalso
      rw [List.get?_eq_none] at hq
      omega
    | some v =>
      have hv : r.getD i [] = v := by
        rw [List.getD_eq_get?, hq]
        rfl
      rw [hv]
      exact hrf r hr _ (List.get?_mem hq)
  have hlines' : splitByte nlB (buildInput (permute p hdr) (rows.map (permute p))) =
      joinBy commaB (permute p hdr) :: (rows.map (permute p)).map (joinBy commaB) := by
    unfold buildInput
    refine splitByte_joinBy (by simp) ?_
    intro l hl
    rcases List.mem_cons.mp hl with h | h
    · subst h
      exact not_mem_joinBy (by decide) (fun f hf => (hpermfields f hf).2)
    · obtain ⟨r', hr', hrl⟩ := List.mem_map.mp h
      obtain ⟨r, hr, hrr⟩ := List.mem_map.mp hr'
      subst hrl
      subst hrr
      exact not_mem_joinBy (by decide) (fun f hf => (hrowfields' r hr f hf).2)
  have hhdr_cols : splitByte commaB (joinBy commaB hdr) = hdr :=
    splitByte_joinBy hdne (fun f hf => (hhf f hf).1)
  have hpne : permute p hdr ≠ [] := by
    intro h
    have := hpn
    rw [h] at this
    simp at this
    omega
  have hcols' : splitByte commaB (joinBy commaB (permute p hdr)) = permute p hdr :=
    splitByte_joinBy hpne (fun f hf => (hpermfields f hf).1)
  have hfh : ColIndices.from_header (joinBy commaB hdr) =
      .ok (⟨is', ib, io, iw, ie, ip⟩, hdr.length) := by
    rw [from_header_eq, hhdr_cols, his, hib, hio, hiw, hie, hip]
  have hfh' : ColIndices.from_header (joinBy commaB (permute p hdr)) =
      .ok (⟨js, jb, jo, jw, je, jp⟩, hdr.length) := by
    rw [from_header_eq, hcols', hjs, hjb, hjo, hjw, hje, hjp, hpn]
  have hstep : ∀ r ∈ rows, ∀ tab : Table,
      stepLine ⟨js, jb, jo, jw, je, jp⟩ tab (joinBy commaB (permute p r)) =
        stepLine ⟨is', ib, io, iw, ie, ip⟩ tab (joinBy commaB r) := by
    intro r hr tab
    have hrlen : r.length = hdr.length := hlen r hr
    have hrne : r ≠ [] := by
      intro h
      rw [h] at hrlen
      simp at hrlen
      omega
    have hrpn : (permute p r).length = hdr.length := by
      simp [permute, hplen]
    have hrcols : splitByte commaB (joinBy commaB r) = r :=
      splitByte_joinBy hrne (fun f hf => (hrf r hr f hf).1)
    have hrcols' : splitByte commaB (joinBy commaB (permute p r)) = permute p r := by
      refine splitByte_joinBy ?_ (fun f hf => (hrowfields' r hr f hf).1)
      intro h
      rw [h] at hrpn
      simp at hrpn
      omega
    refine stepLine_congr _ _ tab _ _
      (joinBy_ne_nil_of_two (by omega))
      (joinBy_ne_nil_of_two (by rw [hrpn]; omega))
      ?_ ?_ ?_ ?_ ?_ ?_ <;> rw [hrcols', hrcols]
    · exact getCol_permute hpjs (show is' < r.length by omega)
    · exact getCol_permute hpjp (show ip < r.length by omega)
    · exact getCol_permute hpjb (show ib < r.length by omega)
    · exact getCol_permute hpjo (show io < r.length by omega)
    · exact getCol_permute hpjw (show iw < r.length by omega)
    · exact getCol_permute hpje (show ie < r.length by omega)
  unfold calc_key_ref
  rw [hlines, hlines']
  simp only [calcLines, hfh, hfh', okBind]
  rw [List.map_map]
  exact foldlM_stepLine_pointwise _ _ _ _
    (forall2_map_map _ _ _ rows (fun r hr => hstep r hr)) []

/-- Witness for C8: reversing all six columns of the standard header (rows
permuted consistently) leaves the aggregation result unchanged. -/
theorem C8_header_permutation_witness :
    calc_key_ref (buildInput
        (permute [5, 4, 3, 2, 1, 0] [sourceB, bsB, ordQtyB, wrkQtyB, excQtyB, prodB])
        ([[toClntB, buyB, [49], [50], [51], aaaB]].map (permute [5, 4, 3, 2, 1, 0]))) =
      calc_key_ref (buildInput [sourceB, bsB, ordQtyB, wrkQtyB, excQtyB, prodB]
        [[toClntB, buyB, [49], [50], [51], aaaB]]) :=
  C8_header_permutation [sourceB, bsB, ordQtyB, wrkQtyB, excQtyB, prodB]
    [[toClntB, buyB, [49], [50], [51], aaaB]] [5, 4, 3, 2, 1, 0]
    (by decide) (by decide) (by decide) (by decide) (by decide) (by decide)

/-- ASCII bytes of `"BBB"`. -/
def bbbB : List Nat := [66, 66, 66]

/-- A header in which all six names occur but `Prod` occurs twice. -/
def c8Hdr : List (List Nat) := [sourceB, bsB, ordQtyB, wrkQtyB, excQtyB, prodB, prodB]

/-- A consistent data row for `c8Hdr`. -/
def c8Row : List (List Nat) := [toClntB, buyB, [49], [49], [49], aaaB, bbbB]

/-- The permutation swapping the two `Prod` columns. -/
def c8Perm : List Nat := [0, 1, 2, 3, 4, 6, 5]

/-- C8 counterexample: with a duplicated required name the claim fails. The
header contains all six required names; swapping its two `Prod` columns
leaves the header text literally unchanged, yet permuting the data row
consistently moves a different field under the resolved `Prod` index, so the
aggregates change key from `BBB` to `AAA`. -/
theorem C8_counterexample :
    c8Perm.Perm (List.range c8Hdr.length) ∧
    (∀ nm ∈ requiredNames, nm ∈ c8Hdr) ∧
    permute c8Perm c8Hdr = c8Hdr ∧
    calc_key_ref (buildInput c8Hdr [c8Row]) = .ok [(bbbB, ⟨1, 1, 0, 1⟩)] ∧
    calc_key_ref (buildInput (permute c8Perm c8Hdr) [permute c8Perm c8Row]) =
      .ok [(aaaB, ⟨1, 1, 0, 1⟩)] ∧
    ([(bbbB, (⟨1, 1, 0, 1⟩ : ProductData))] : Table) ≠ [(aaaB, ⟨1, 1, 0, 1⟩)] :=
  ⟨by decide, by decide, by decide, rfl, rfl, by decide⟩

/-! ## Counter wrap-around: the C6 counterexample -/

/-- The data row `ToClnt,Buy,1,1,1,AAA`. -/
def buyLine : List Nat := joinBy commaB [toClntB, buyB, [49], [49], [49], aaaB]

/-- The data row `ToClnt,Hold,1,1,1,AAA`. -/
def holdLine : List Nat := joinBy commaB [toClntB, holdB, [49], [49], [49], aaaB]

/-- The standard header schema. -/
def idx0 : ColIndices := ⟨0, 1, 2, 3, 4, 5⟩

/-- An input with `2^32 - 1` Buy rows followed by one Hold row, all for
entity `AAA`. -/
def c6BigText : List Nat :=
  joinBy nlB (headerLine :: (List.replicate (W32 - 1) buyLine ++ [holdLine]))

theorem step_buy (pd : ProductData) :
    stepLine idx0 [(aaaB, pd)] buyLine =
      .ok [(aaaB, ⟨(pd.count + 1) % W32, (pd.buys + 1) % W32, pd.sells,
        (pd.total_qty + 1) % W32⟩)] := by
  rw [stepLine_eq_rowClass]
  have hr : rowClass idx0 buyLine = .ok (some (aaaB, ⟨true, false, 1⟩)) := rfl
  rw [hr]
  rfl

theorem step_hold (pd : ProductData) :
    stepLine idx0 [(aaaB, pd)] holdLine =
      .ok [(aaaB, ⟨(pd.count + 1) % W32, pd.buys, pd.sells, (pd.total_qty + 1) % W32⟩)] := by
  rw [stepLine_eq_rowClass]
  have hr : rowClass idx0 holdLine = .ok (some (aaaB, ⟨false, false, 1⟩)) := rfl
  rw [hr]
  rfl

theorem fold_buy (m : Nat) : ∀ pd : ProductData,
    pd.count < W32 → pd.buys < W32 → pd.total_qty < W32 →
    (List.replicate m buyLine).foldlM (stepLine idx0) [(aaaB, pd)] =
      .ok [(aaaB, ⟨(pd.count + m) % W32, (pd.buys + m) % W32, pd.sells,
        (pd.total_qty + m) % W32⟩)] := by
  induction m with
  | zero =>
    intro pd hc hb ht
    simp only [List.replicate_zero, List.foldlM_nil, Nat.add_zero]
    rw [Nat.mod_eq_of_lt hc, Nat.mod_eq_of_lt hb, Nat.mod_eq_of_lt ht]
    rfl
  | succ m ih =>
    intro pd hc hb ht
    rw [List.replicate_succ]
    simp only [List.foldlM_cons]
    rw [step_buy pd, okBind]
    have hpos : (0 : Nat) < W32 := by decide
    rw [ih ⟨(pd.count + 1) % W32, (pd.buys + 1) % W32, pd.sells, (pd.total_qty + 1) % W32⟩
      (Nat.mod_lt _ hpos) (Nat.mod_lt _ hpos) (Nat.mod_lt _ hpos)]
    have e1 : ((pd.count + 1) % W32 + m) % W32 = (pd.count + (m + 1)) % W32 := by
      rw [Nat.mod_add_mod]
      congr 1
      omega
    have e2 : ((pd.buys + 1) % W32 + m) % W32 = (pd.buys + (m + 1)) % W32 := by
      rw [Nat.mod_add_mod]
      congr 1
      omega
    have e3 : ((pd.total_qty + 1) % W32 + m) % W32 = (pd.total_qty + (m + 1)) % W32 := by
      rw [Nat.mod_add_mod]
      congr 1
      omega
    rw [e1, e2, e3]

theorem tail_eval :
    [holdLine].foldlM (stepLine idx0) [(aaaB, ⟨W32 - 1, W32 - 1, 0, W32 - 1⟩)] =
      .ok [(aaaB, ⟨0, W32 - 1, 0, 0⟩)] := by
  simp only [List.foldlM_cons, List.foldlM_nil]
  rw [step_hold ⟨W32 - 1, W32 - 1, 0, W32 - 1⟩, okBind]
  have h2 : (W32 - 1 + 1) % W32 = 0 := by decide
  rw [h2]
  rfl

theorem repl_eval :
    (List.replicate (W32 - 1) buyLine).foldlM (stepLine idx0) [] =
      .ok [(aaaB, ⟨W32 - 1, W32 - 1, 0, W32 - 1⟩)] := by
  have hrep : W32 - 1 = (W32 - 2) + 1 := by decide
  nth_rewrite 1 [hrep]
  rw [List.replicate_succ]
  simp only [List.foldlM_cons]
  rw [show stepLine idx0 [] buyLine = .ok [(aaaB, ⟨1, 1, 0, 1⟩)] from rfl, okBind]
  rw [fold_buy (W32 - 2) ⟨1, 1, 0, 1⟩ (by decide) (by decide) (by decide)]
  have h1 : (1 + (W32 - 2)) % W32 = W32 - 1 := by decide
  rw [h1]

theorem app_eval :
    (List.replicate (W32 - 1) buyLine ++ [holdLine]).foldlM (stepLine idx0) [] =
      .ok [(aaaB, ⟨0, W32 - 1, 0, 0⟩)] := by
  rw [except_foldlM_append, repl_eval, okBind]
  exact tail_eval

theorem c6Big_lines :
    splitByte nlB c6BigText =
      headerLine :: (List.replicate (W32 - 1) buyLine ++ [holdLine]) := by
  unfold c6BigText
  refine splitByte_joinBy (by simp) ?_
  intro l hl
  rcases List.mem_cons.mp hl with h | h
  · subst h
    decide
  · rcases List.mem_append.mp h with h | h
    · rw [List.eq_of_mem_replicate h]
      decide
    · rw [List.mem_singleton.mp h]
      decide

theorem calcLines_cons_ok (hdr : List Nat) (rest : List (List Nat)) (idx : ColIndices)
    (n : Nat) (hfh : ColIndices.from_header hdr = .ok (idx, n)) :
    calcLines (hdr :: rest) = rest.foldlM (stepLine idx) [] := by
  simp only [calcLines, hfh, okBind]

theorem c6Big_eval :
    calc_key_ref c6BigText = .ok [(aaaB, ⟨0, W32 - 1, 0, 0⟩)] := by
  have h2 : calc_key_ref c6BigText = calcLines (splitByte nlB c6BigText) := rfl
  rw [h2, c6Big_lines, calcLines_cons_ok headerLine _ idx0 6 rfl]
  exact app_eval

/-- C6 counterexample: the unrestricted invariant is false, because all three
counters are `u32` and wrap. On the input with `2^32 - 1` Buy rows and one
Hold row for entity `AAA`, the final accumulator has `count = 0` (wrapped)
but `buys = 2^32 - 1`, so `buys + sells ≤ count` fails. -/
theorem C6_counterexample :
    ¬ (∀ (text : List Nat) (tab : Table) (k : List Nat) (pd : ProductData),
        calc_key_ref text = .ok tab → lookupA tab k = some pd →
        pd.buys + pd.sells ≤ pd.count) := by
  intro h
  have hpd := h c6BigText [(aaaB, ⟨0, W32 - 1, 0, 0⟩)] aaaB ⟨0, W32 - 1, 0, 0⟩
    c6Big_eval rfl
  exact absurd hpd (by decide)
